import Mathlib

/-!
# EV dashboard: record normalizer, filter engine and aggregator

A shallow embedding of `src/components/dashboard.jsx`: the record normalizer of the
`Papa.parse` completion callback, the filter effect, `getCounts`, `getTop` and the data of
the model-year line chart, followed by the properties proved about them.

Conventions of the embedding.

* A string is a Lean `String`; where the source orders strings, the order is the one of
  their UTF-16 code units.
* A number is `JSNum`: not-a-number, an infinity, or the exact decimal `mant * 10 ^ exp`.
  `parseInt` rounds the integer it reads to binary64 (`roundBinary64`). `parseFloat` and
  the printing of numbers work on the decimal as written, which is exact on the numbers
  that binary64 prints back digit for digit (every integer of magnitude at most `2 ^ 53`,
  every decimal numeral of at most fifteen significant digits). The sign of zero is left
  out.
* An object is the list of its own properties in creation order; what the source reads
  through the prototype chain comes from `objectPrototypeMembers`.
* `Array.prototype.sort` is a stable sort; it is embedded as insertion sort, which yields
  the one stable arrangement whenever the comparator is a consistent ordering.
-/

namespace EvDashboard

/-! ## Numbers -/

/-- A number value: not-a-number, an infinity, or the decimal `mant * 10 ^ exp`. -/
inductive JSNum where
  | nan
  | inf (negative : Bool)
  | dec (mant : Int) (exp : Int)
  deriving DecidableEq, Repr

namespace JSNum

/-- Unary minus. -/
def neg : JSNum → JSNum
  | nan => nan
  | inf b => inf (!b)
  | dec m e => dec (-m) e

/-- The `+` of two numbers. -/
def add : JSNum → JSNum → JSNum
  | nan, _ => nan
  | _, nan => nan
  | inf a, inf b => if a = b then inf a else nan
  | inf a, dec _ _ => inf a
  | dec _ _, inf b => inf b
  | dec m₁ e₁, dec m₂ e₂ =>
    let e := min e₁ e₂
    dec (m₁ * 10 ^ (e₁ - e).toNat + m₂ * 10 ^ (e₂ - e).toNat) e

/-- The `-` of two numbers. -/
def sub (a b : JSNum) : JSNum := add a (neg b)

/-- The sign a sort reads off a comparator result: not-a-number counts as zero. -/
def sortSign : JSNum → Int
  | nan => 0
  | inf b => if b then -1 else 1
  | dec m _ => Int.sign m

end JSNum

/-! ## Strings and numerals -/

/-- White space and line terminators, which `parseInt`, `parseFloat` and the conversion of
a string to a number skip. -/
def isStrWhiteSpace (c : Char) : Bool :=
  [0x09, 0x0A, 0x0B, 0x0C, 0x0D, 0x20, 0xA0, 0x1680, 0x2000, 0x2001, 0x2002, 0x2003, 0x2004,
    0x2005, 0x2006, 0x2007, 0x2008, 0x2009, 0x200A, 0x2028, 0x2029, 0x202F, 0x205F, 0x3000,
    0xFEFF].contains c.toNat

/-- The value of a character as a digit of a radix up to 36, if it is one. -/
def digitOfChar (radix : Nat) (c : Char) : Option Nat :=
  let v : Option Nat :=
    if 48 ≤ c.toNat ∧ c.toNat ≤ 57 then some (c.toNat - 48)
    else if 97 ≤ c.toNat ∧ c.toNat ≤ 122 then some (c.toNat - 87)
    else if 65 ≤ c.toNat ∧ c.toNat ≤ 90 then some (c.toNat - 55)
    else none
  v.bind fun d => if d < radix then some d else none

/-- Whether the character is a digit of the radix. -/
def isRadixDigit (radix : Nat) (c : Char) : Bool := (digitOfChar radix c).isSome

/-- The integer that a run of digits of the radix denotes. -/
def radixValue (radix : Nat) (ds : List Char) : Nat :=
  ds.foldl (fun acc c => radix * acc + (digitOfChar radix c).getD 0) 0

/-- The digits of `n`, least significant first; `fuel` bounds their number. -/
def digitsLE : Nat → Nat → List Nat
  | 0, _ => []
  | fuel + 1, n => if n < 10 then [n] else n % 10 :: digitsLE fuel (n / 10)

/-- The character of a decimal digit. -/
def digitChar (d : Nat) : Char := Char.ofNat (48 + d)

/-- The decimal numeral of a natural number, most significant digit first. -/
def decimalDigits (n : Nat) : List Char := ((digitsLE (n + 1) n).reverse).map digitChar

/-- A run of digits without the zeros at its end. -/
def dropTrailingZeros (ds : List Char) : List Char :=
  ((ds.reverse).dropWhile fun c => c == '0').reverse

/-- The string of a number (`Number::toString`, radix 10): with `k` significant digits and
the decimal point after the `n`-th of them, plain digits when `k ≤ n ≤ 21`, a decimal
point inside when `0 < n ≤ 21`, leading zeros when `-6 < n ≤ 0`, and exponent form
otherwise. -/
def numberToString : JSNum → String
  | .nan => "NaN"
  | .inf b => if b then "-Infinity" else "Infinity"
  | .dec m e =>
    if m = 0 then "0" else
    let ds := decimalDigits m.natAbs
    let s := dropTrailingZeros ds
    let k : Int := s.length
    let n : Int := ds.length + e
    let body : List Char :=
      if k ≤ n ∧ n ≤ 21 then s ++ List.replicate (n - k).toNat '0'
      else if 0 < n ∧ n ≤ 21 then s.take n.toNat ++ '.' :: s.drop n.toNat
      else if -6 < n ∧ n ≤ 0 then '0' :: '.' :: (List.replicate (-n).toNat '0' ++ s)
      else
        let expo := (if 0 < n - 1 then '+' else '-') :: decimalDigits (n - 1).natAbs
        match s with
        | [] => []
        | [d] => d :: 'e' :: expo
        | d :: rest => d :: '.' :: (rest ++ 'e' :: expo)
    String.mk (if m < 0 then '-' :: body else body)

/-- An optional sign at the head of the text: whether it is a minus, and what follows. -/
def takeSign : List Char → Bool × List Char
  | '-' :: t => (true, t)
  | '+' :: t => (false, t)
  | s => (false, s)

/-- A signed integer. -/
def signed (negative : Bool) (n : Nat) : Int := if negative then -(n : Int) else n

/-- The longest prefix of the text that is a decimal literal (`StrDecimalLiteral`): its
value and the text after it, or nothing when no prefix is one. -/
def strDecimalPrefix (s : List Char) : Option (JSNum × List Char) :=
  let (negative, s) := takeSign s
  if "Infinity".data <+: s then some (.inf negative, s.drop 8) else
  let intDigits := s.takeWhile Char.isDigit
  let rest := s.dropWhile Char.isDigit
  let (fracDigits, rest) : List Char × List Char :=
    match rest with
    | '.' :: t => (t.takeWhile Char.isDigit, t.dropWhile Char.isDigit)
    | _ => ([], rest)
  if intDigits = [] ∧ fracDigits = [] then none else
  let (expo, rest) : Int × List Char :=
    match rest with
    | c :: t =>
      if c = 'e' ∨ c = 'E' then
        let (expNegative, u) := takeSign t
        let expDigits := u.takeWhile Char.isDigit
        if expDigits = [] then (0, rest)
        else (signed expNegative (radixValue 10 expDigits), u.dropWhile Char.isDigit)
      else (0, rest)
    | [] => (0, rest)
  some (.dec (signed negative (radixValue 10 (intDigits ++ fracDigits)))
    (expo - fracDigits.length), rest)

/-- The radix of a non-decimal integer literal and the text of its digits, when the text
opens with `0x`, `0o` or `0b` in either case. -/
def nonDecimalPrefix : List Char → Option (Nat × List Char)
  | '0' :: 'x' :: t => some (16, t)
  | '0' :: 'X' :: t => some (16, t)
  | '0' :: 'o' :: t => some (8, t)
  | '0' :: 'O' :: t => some (8, t)
  | '0' :: 'b' :: t => some (2, t)
  | '0' :: 'B' :: t => some (2, t)
  | _ => none

/-- The conversion of a string to a number (`StringToNumber`): white space around the
text is dropped, the empty text is zero, `0x`, `0o` and `0b` open an unsigned integer of
that radix, and anything but a whole decimal literal is not-a-number. -/
def stringToNumber (text : String) : JSNum :=
  let s := ((text.data.dropWhile isStrWhiteSpace).reverse.dropWhile isStrWhiteSpace).reverse
  if s = [] then .dec 0 0 else
  match nonDecimalPrefix s with
  | some (radix, t) =>
    if t ≠ [] ∧ t.all (isRadixDigit radix) then .dec (radixValue radix t) 0 else .nan
  | none =>
    match strDecimalPrefix s with
    | some (v, []) => v
    | _ => .nan

/-! ## Values and objects -/

/-- A value: `undefined`, a string, a number, or an object or function, which is carried
with the string it converts to. -/
inductive JSVal where
  | undefined
  | str (s : String)
  | num (n : JSNum)
  | object (text : String)
  deriving DecidableEq, Repr

/-- The conversion `ToString`. -/
def toJSString : JSVal → String
  | .undefined => "undefined"
  | .str s => s
  | .num n => numberToString n
  | .object text => text

/-- The conversion `ToNumber`. -/
def toNumber : JSVal → JSNum
  | .undefined => .nan
  | .str s => stringToNumber s
  | .num n => n
  | .object text => stringToNumber text

/-- The conversion `ToBoolean`. -/
def toBoolean : JSVal → Bool
  | .undefined => false
  | .str s => s ≠ ""
  | .num (.dec m _) => m ≠ 0
  | .num .nan => false
  | .num (.inf _) => true
  | .object _ => true

/-- The operator `||`. -/
def jsOr (a b : JSVal) : JSVal := if toBoolean a then a else b

/-- The operator `+`: concatenation as soon as one operand is a string or an object,
addition of numbers otherwise. -/
def jsPlus : JSVal → JSVal → JSVal
  | .num a, .num b => .num (a.add b)
  | .num a, .undefined => .num (a.add .nan)
  | .undefined, .num b => .num (JSNum.nan.add b)
  | .undefined, .undefined => .num .nan
  | a, b => .str (toJSString a ++ toJSString b)

/-- The operator `===` against a string operand. -/
def strictEqualsString (v : JSVal) (s : String) : Bool :=
  match v with
  | .str t => t == s
  | _ => false

/-- The source text by which an engine shows a built-in function (here as V8 does). -/
def nativeFunctionText (name : String) : String :=
  "function " ++ name ++ "() \x7b [native code] \x7d"

/-- The properties every object inherits from `Object.prototype`: eleven functions, and
`__proto__`, whose getter returns the prototype object. -/
def objectPrototypeMembers : List (String × JSVal) :=
  [("constructor", .object (nativeFunctionText "Object")),
   ("__defineGetter__", .object (nativeFunctionText "__defineGetter__")),
   ("__defineSetter__", .object (nativeFunctionText "__defineSetter__")),
   ("hasOwnProperty", .object (nativeFunctionText "hasOwnProperty")),
   ("__lookupGetter__", .object (nativeFunctionText "__lookupGetter__")),
   ("__lookupSetter__", .object (nativeFunctionText "__lookupSetter__")),
   ("isPrototypeOf", .object (nativeFunctionText "isPrototypeOf")),
   ("propertyIsEnumerable", .object (nativeFunctionText "propertyIsEnumerable")),
   ("toString", .object (nativeFunctionText "toString")),
   ("valueOf", .object (nativeFunctionText "valueOf")),
   ("__proto__", .object "[object Object]"),
   ("toLocaleString", .object (nativeFunctionText "toLocaleString"))]

/-- An ordinary object whose prototype is `Object.prototype`: its own properties, in the
order of their creation. -/
abbrev JSObject := List (String × JSVal)

/-- The index a property key stands for when it is an array index: the canonical decimal
numeral of an integer below `2 ^ 32 - 1`. -/
def arrayIndex? (key : String) : Option Nat :=
  let ds := key.data
  if ds ≠ [] ∧ ds.all Char.isDigit ∧ (ds = [ '0'] ∨ ds.head? ≠ some '0')
      ∧ radixValue 10 ds < 4294967295 then
    some (radixValue 10 ds)
  else none

namespace JSObject

/-- The read `o[key]`: the own property, else the inherited one, else `undefined`. -/
def get (o : JSObject) (key : String) : JSVal :=
  match o.lookup key with
  | some v => v
  | none => (objectPrototypeMembers.lookup key).getD .undefined

/-- The own property `key` replaced by, or created after the others with, the value `v`. -/
def define : JSObject → String → JSVal → JSObject
  | [], key, v => [(key, v)]
  | (k, w) :: rest, key, v =>
    if k = key then (k, v) :: rest else (k, w) :: define rest key v

/-- The assignment `o[key] = v` of a string or a number: an own property is overwritten;
otherwise the inherited setter of `__proto__` ignores such a value, and every other key
becomes a new own property. -/
def set (o : JSObject) (key : String) (v : JSVal) : JSObject :=
  if (o.lookup key).isNone ∧ key = "__proto__" then o else define o key v

/-- The pairs of `Object.entries(o)`: array-index keys in ascending numeric order, then
the other keys in the order of their creation. -/
def entries (o : JSObject) : List (String × JSVal) :=
  ((o.filter fun p => (arrayIndex? p.1).isSome).insertionSort
      fun a b => (arrayIndex? a.1).getD 0 ≤ (arrayIndex? b.1).getD 0)
    ++ o.filter fun p => (arrayIndex? p.1).isNone

/-- The keys of `Object.keys(o)`. -/
def keys (o : JSObject) : List String := (entries o).map Prod.fst

/-- The values of `Object.values(o)`. -/
def values (o : JSObject) : List JSVal := (entries o).map Prod.snd

end JSObject

/-! ## Arrays -/

/-- The call `array.sort(comparefn)`: a stable sort that puts `a` before `b` when
`comparefn(a, b)` is negative and keeps their order when it is zero or not-a-number. -/
def arraySort {α : Type} (comparefn : α → α → JSNum) (l : List α) : List α :=
  l.insertionSort fun a b => (comparefn a b).sortSign ≤ 0

/-- The UTF-16 code units of a string. -/
def utf16Units (s : String) : List Nat :=
  s.data.flatMap fun c =>
    if c.toNat < 0x10000 then [c.toNat]
    else [0xD800 + (c.toNat - 0x10000) / 0x400, 0xDC00 + (c.toNat - 0x10000) % 0x400]

/-- Lexicographic order of code-unit sequences. -/
def unitsLT : List Nat → List Nat → Bool
  | [], [] => false
  | [], _ :: _ => true
  | _ :: _, [] => false
  | a :: as, b :: bs => a < b || (a == b && unitsLT as bs)

/-- The comparison `a < b` of two strings. -/
def stringLT (a b : String) : Bool := unitsLT (utf16Units a) (utf16Units b)

/-- The call `array.sort()` on strings: a stable sort by code units. -/
def defaultSort (l : List String) : List String :=
  l.insertionSort fun a b => stringLT b a = false

/-- The call `array.slice(0, stop)` for an integer `stop`: a negative `stop` counts from
the end of the array. -/
def arraySlice0 {α : Type} (l : List α) (stop : Int) : List α :=
  let len : Int := l.length
  let final : Int := if stop < 0 then max (len + stop) 0 else min stop len
  l.take final.toNat

/-- The call `text.split(sep)` for a separator of one character. -/
def splitOn (sep : Char) : List Char → List (List Char)
  | [] => [[]]
  | c :: t =>
    if c = sep then [] :: splitOn sep t
    else
      match splitOn sep t with
      | [] => [[c]]
      | h :: r => (c :: h) :: r

/-- The call `text.replace(c, "")`: the first occurrence of `c` is removed. -/
def replaceFirst (c : Char) : List Char → List Char
  | [] => []
  | d :: t => if d = c then t else d :: replaceFirst c t

/-! ## Global functions -/

/-- The radix that `parseInt` settles on when it is given none, and the text it reads the
digits from: an opening `0x` or `0X` is dropped and makes the radix 16. -/
def stripHexPrefix : List Char → Nat × List Char
  | '0' :: 'x' :: t => (16, t)
  | '0' :: 'X' :: t => (16, t)
  | s => (10, s)

/-- The number of binary digits of `n`; `fuel` bounds their number. -/
def bitLength : Nat → Nat → Nat
  | 0, _ => 0
  | fuel + 1, n => if n = 0 then 0 else bitLength fuel (n / 2) + 1

/-- The number value of a non-negative integer: the nearest binary64, a significand of 53
binary digits times a power of two, the even significand on a tie; nothing when the
nearest one is beyond the largest finite number. -/
def roundBinary64 (n : Nat) : Option Nat :=
  let e := bitLength n n - 53
  let q := n / 2 ^ e
  let r := n % 2 ^ e
  let q' := if 2 ^ e < 2 * r ∨ (2 * r = 2 ^ e ∧ q % 2 = 1) then q + 1 else q
  if bitLength (q' * 2 ^ e) (q' * 2 ^ e) ≤ 1024 then some (q' * 2 ^ e) else none

/-- The call `parseInt(input)` without a radix: leading white space and one sign are
skipped, `0x` or `0X` switches to radix 16, and the longest run of digits of the radix is
read as an integer, whose number value is returned (an infinity when it is too large);
not-a-number when that run is empty. Past the twentieth significant digit the language
lets an engine read zeros; the integer is read in full here, as the engines do. -/
def parseInt (input : JSVal) : JSNum :=
  let (negative, s) := takeSign ((toJSString input).data.dropWhile isStrWhiteSpace)
  let (radix, s) := stripHexPrefix s
  let z := s.takeWhile (isRadixDigit radix)
  if z = [] then .nan
  else
    match roundBinary64 (radixValue radix z) with
    | some v => .dec (signed negative v) 0
    | none => .inf negative

/-- The call `parseFloat(input)`: leading white space is skipped and the longest prefix
that is a decimal literal is the value; not-a-number when there is none. -/
def parseFloat (input : JSVal) : JSNum :=
  match strDecimalPrefix ((toJSString input).data.dropWhile isStrWhiteSpace) with
  | some (v, _) => v
  | none => .nan

/-! ## Record normalizer (`Papa.parse` completion callback, lines 19-26) -/

/-- An exception thrown by the source. -/
inductive JSError where
  | typeError (message : String)
  deriving DecidableEq, Repr

/-- A parsed CSV row: column name and text of each field. -/
abbrev RawRecord := List (String × String)

/-- A normalized record. -/
abbrev Record := JSObject

/-- The row as an object. -/
def rawObject (item : RawRecord) : JSObject := item.map fun p => (p.1, JSVal.str p.2)

/-- The expression `item["Vehicle Location"].split(" ")[i]?.replace(paren, "")`: the
optional chain guards the token only, so a row without the field throws. -/
def locationToken (item : JSObject) (i : Nat) (paren : Char) : Except JSError JSVal :=
  match item.get "Vehicle Location" with
  | .str s =>
    match (splitOn ' ' s.data)[i]? with
    | some token => .ok (.str (String.mk (replaceFirst paren token)))
    | none => .ok .undefined
  | .undefined => .error (.typeError "cannot read properties of undefined (reading split)")
  | _ => .error (.typeError "split is not a function")

/-- The record built from one row (the arrow function of `results.data.map`). -/
def cleanItem (item : RawRecord) : Except JSError Record := do
  let raw := rawObject item
  let modelYear := parseInt (raw.get "Model Year")
  let electricRange := parseInt (raw.get "Electric Range")
  let baseMSRP := parseInt (raw.get "Base MSRP")
  let latitude ← locationToken raw 1 '('
  let longitude ← locationToken raw 2 ')'
  pure (((((raw.define "Model Year" (.num modelYear)).define "Electric Range"
    (.num electricRange)).define "Base MSRP" (.num baseMSRP)).define "Latitude"
    (.num (parseFloat latitude))).define "Longitude" (.num (parseFloat longitude)))

/-- The array `cleaned`: every row normalized, unless one of them throws. -/
def cleanAll (rows : List RawRecord) : Except JSError (List Record) := rows.mapM cleanItem

/-! ## Filter effect (lines 34-41) -/

/-- The state `filters`. -/
structure Filters where
  city : String
  county : String
  deriving DecidableEq, Repr

/-- The array `filteredData` that the effect stores as `filtered`. -/
def filterEffect (data : List Record) (filters : Filters) : List Record :=
  data.filter fun item =>
    (!toBoolean (.str filters.city) || strictEqualsString (item.get "City") filters.city) &&
    (!toBoolean (.str filters.county) || strictEqualsString (item.get "County") filters.county)

/-! ## Aggregator (lines 43-55) -/

/-- The property key that a value used as a key converts to. -/
def toPropertyKey (v : JSVal) : String := toJSString v

/-- One turn of the loop of `getCounts`:
`counts[item[key]] = (counts[item[key]] || 0) + 1`. -/
def countStep (key : String) (counts : JSObject) (item : Record) : JSObject :=
  let k := toPropertyKey (item.get key)
  counts.set k (jsPlus (jsOr (counts.get k) (.num (.dec 0 0))) (.num (.dec 1 0)))

/-- The function `getCounts(key)` over the state `filtered`. -/
def getCounts (filtered : List Record) (key : String) : JSObject :=
  filtered.foldl (countStep key) []

/-- The function `getTop(obj, topN)`. -/
def getTop (obj : JSObject) (topN : Int) : List (String × JSVal) :=
  arraySlice0 (arraySort (fun a b => (toNumber b.2).sub (toNumber a.2)) obj.entries) topN

/-! ## Model-year line chart (lines 145-156) -/

/-- The chart labels `Object.keys(modelYearDist).sort()`. -/
def modelYearLabels (filtered : List Record) : List String :=
  defaultSort (getCounts filtered "Model Year").keys

/-- The chart data
`Object.entries(modelYearDist).sort((a, b) => a[0] - b[0]).map(([_, v]) => v)`. -/
def modelYearData (filtered : List Record) : List JSVal :=
  (arraySort (fun a b => (stringToNumber a.1).sub (stringToNumber b.1))
    (getCounts filtered "Model Year").entries).map Prod.snd

/-! ## Notions of the specification -/

/-- The filter contract in the words of the specification: every non-empty constraint
equals the field of the record as a string. -/
def matchesFilters (filters : Filters) (r : Record) : Bool :=
  decide (filters.city = "" ∨ r.get "City" = JSVal.str filters.city) &&
  decide (filters.county = "" ∨ r.get "County" = JSVal.str filters.county)

/-- The property keys of the values of a field, record by record. -/
def fieldKeys (filtered : List Record) (field : String) : List String :=
  filtered.map fun item => toPropertyKey (item.get field)

/-- The names of the properties that every object inherits. -/
def inheritedNames : List String := objectPrototypeMembers.map Prod.fst

/-- The sum of the values of an object, `Object.values(obj).reduce((a, b) => a + b, 0)`. -/
def valuesSum (obj : JSObject) : JSVal := obj.values.foldl jsPlus (.num (.dec 0 0))

/-- A count map: every value is a count, a non-negative integer. -/
def IsCountMap (obj : JSObject) : Prop := ∀ p ∈ obj, ∃ c : Nat, p.2 = JSVal.num (.dec c 0)

/-- The count that a value of a count map holds. -/
def countOf : JSVal → Nat
  | .num (.dec m 0) => m.toNat
  | _ => 0

/-- Whether two values are the same value (`SameValueZero`, as a `Set` tells values apart):
same type and same content, numbers compared by what they denote. -/
def sameValue : JSVal → JSVal → Bool
  | .undefined, .undefined => true
  | .str a, .str b => a == b
  | .object a, .object b => a == b
  | .num .nan, .num .nan => true
  | .num (.inf a), .num (.inf b) => a == b
  | .num (.dec m₁ e₁), .num (.dec m₂ e₂) =>
    ((JSNum.dec m₁ e₁).sub (JSNum.dec m₂ e₂)).sortSign == 0
  | _, _ => false

/-- The number of distinct values of a field in a record list. -/
def distinctValueCount (filtered : List Record) (field : String) : Nat :=
  ((filtered.map fun item => item.get field).pwFilter
    fun a b => sameValue a b = false).length

/-- A base-10 integer numeral: an optional sign and then one decimal digit or more. -/
def isBase10Numeral (text : String) : Bool :=
  let ds := (takeSign text.data).2
  !ds.isEmpty && ds.all Char.isDigit

/-- The loop of `getCounts` on the property keys of the records: each key in turn is
counted by `counts[k] = (counts[k] || 0) + 1`. -/
def tally (ks : List String) : JSObject :=
  ks.foldl
    (fun counts k =>
      counts.set k (jsPlus (jsOr (counts.get k) (.num (.dec 0 0))) (.num (.dec 1 0))))
    []

/-- The distinct keys of a list in the order of their first occurrence. -/
def firstSeen (ks : List String) : List String :=
  ks.foldl (fun acc k => if k ∈ acc then acc else acc ++ [k]) []

/-- The tie rule in the words of the specification: of two keys with equal counts, the
one whose value was seen first in the record list is listed first by `getTop`. -/
def TiesInFirstSeenOrder (filtered : List Record) (field : String) (n : Int) : Prop :=
  ∀ (k₁ k₂ : String) (c : JSVal),
    (k₁, c) ∈ (getCounts filtered field).entries →
    (k₂, c) ∈ getTop (getCounts filtered field) n →
    (fieldKeys filtered field).indexOf k₁ < (fieldKeys filtered field).indexOf k₂ →
    List.Sublist [(k₁, c), (k₂, c)] (getTop (getCounts filtered field) n)

/-- The order in which an object lists two of its keys: array indices first and in
ascending numeric order, then the other keys as they were first seen in `ks`. -/
def enumeratedBefore (ks : List String) (k₁ k₂ : String) : Prop :=
  match arrayIndex? k₁, arrayIndex? k₂ with
  | some i, some j => i < j
  | some _, none => True
  | none, some _ => False
  | none, none => ks.indexOf k₁ < ks.indexOf k₂

instance (ks : List String) (k₁ k₂ : String) : Decidable (enumeratedBefore ks k₁ k₂) := by
  unfold enumeratedBefore
  split <;> infer_instance

/-- White space in the sense of the language, by its code points: tab to carriage return,
space, no-break space, the space separators and the two line separators, and the byte
order mark. -/
def IsWhiteSpaceChar (c : Char) : Prop :=
  (9 ≤ c.toNat ∧ c.toNat ≤ 13) ∨ c.toNat = 32 ∨ c.toNat = 160 ∨ c.toNat = 5760 ∨
    (8192 ≤ c.toNat ∧ c.toNat ≤ 8202) ∨ c.toNat = 8232 ∨ c.toNat = 8233 ∨
    c.toNat = 8239 ∨ c.toNat = 8287 ∨ c.toNat = 12288 ∨ c.toNat = 65279

/-- The natural number that a run of decimal digits denotes by place value. -/
def digitRunValue (digits : List Char) : Nat :=
  Nat.ofDigits 10 ((digits.map fun c => c.toNat - 48).reverse)

/-- The hypothesis on the model years: every record holds a non-negative integer whose
decimal numeral has `d` digits. -/
def YearsOfWidth (filtered : List Record) (d : Nat) : Prop :=
  ∀ r ∈ filtered, ∃ y : Nat,
    r.get "Model Year" = JSVal.num (.dec y 0) ∧ (decimalDigits y).length = d

/-- The two sequences of the model-year chart are aligned: they have the same length, and
the value at each index is the count that the count map holds for the label there. -/
def ChartAligned (filtered : List Record) : Prop :=
  (modelYearLabels filtered).length = (modelYearData filtered).length ∧
    ∀ (i : Nat) (label : String) (value : JSVal),
      (modelYearLabels filtered)[i]? = some label →
      (modelYearData filtered)[i]? = some value →
      (getCounts filtered "Model Year").lookup label = some value

instance (c : Char) : Decidable (IsWhiteSpaceChar c) := by
  unfold IsWhiteSpaceChar
  infer_instance

/-! ## Properties -/

/-! ### Filter effect -/

/-- Claim C1: for every record list and every filter set, the filtered view is the sub-list of
the data, in input order, of the records that match every non-empty constraint by string
equality; with both constraints empty it is the data itself. -/
theorem filterEffect_eq_filter_matches (data : List Record) (filters : Filters) :
    filterEffect data filters = data.filter (matchesFilters filters) ∧
      filterEffect data ⟨"", ""⟩ = data := by
  constructor
  · unfold filterEffect
    congr 1
    funext item
    simp only [matchesFilters, toBoolean, strictEqualsString]
    have key : ∀ (v : JSVal) (s : String),
        (!decide (s ≠ "") || (match v with | .str t => t == s | _ => false))
          = decide (s = "" ∨ v = JSVal.str s) := by
      intro v s
      by_cases hs : s = ""
      · simp [hs]
      · cases v with
        | str t => by_cases ht : t = s <;> simp [hs, ht]
        | _ => simp [hs]
    rw [key, key]
  · unfold filterEffect
    simp [toBoolean]

/-! ### Record normalizer: coordinates -/

/-- Claim C8, the code at the input of the claim: the three integer fields are 2020, 250 and
45000, but `Latitude` receives the second token, -122.3, and `Longitude` the third, 47.6,
the reverse of what the claim states. -/
theorem cleanItem_swaps_coordinates :
    (cleanItem [("Model Year", "2020"), ("Electric Range", "250"), ("Base MSRP", "45000"),
        ("Vehicle Location", "POINT (-122.3 47.6)")]).map
      (fun r => [r.get "Model Year", r.get "Electric Range", r.get "Base MSRP",
        r.get "Latitude", r.get "Longitude"])
    = .ok [.num (.dec 2020 0), .num (.dec 250 0), .num (.dec 45000 0),
        .num (.dec (-1223) (-1)), .num (.dec 476 (-1))] := by
  rfl

/-- Reading an own property of a row as an object. -/
theorem lookup_rawObject (item : RawRecord) (key : String) :
    (rawObject item).lookup key = (item.lookup key).map JSVal.str := by
  induction item with
  | nil => rfl
  | cons p rest ih =>
    obtain ⟨k, v⟩ := p
    simp only [rawObject, List.map, List.lookup_cons] at ih ⊢
    cases hk : (key == k) <;> simp [ih]

/-- Claim C7, the code on a row without the field: a row that has no "Vehicle Location" makes
the normalizer throw a `TypeError`, so no record is produced. -/
theorem cleanItem_throws (item : RawRecord) (h : item.lookup "Vehicle Location" = none) :
    ∃ message, cleanItem item = .error (.typeError message) := by
  have hget : (rawObject item).get "Vehicle Location" = .undefined := by
    unfold JSObject.get
    rw [lookup_rawObject, h]
    decide
  refine ⟨"cannot read properties of undefined (reading split)", ?_⟩
  unfold cleanItem
  simp only [locationToken, hget]
  rfl

/-- Claim C7 at a concrete row: two fields, none of them "Vehicle Location". -/
theorem cleanItem_throws_example :
    List.lookup "Vehicle Location" [("Model Year", "2020"), ("Make", "Tesla")] = none ∧
      ∃ message, cleanItem [("Model Year", "2020"), ("Make", "Tesla")]
        = .error (.typeError message) :=
  ⟨rfl, cleanItem_throws _ rfl⟩

/-! ### The counting loop -/

/-- The function `getCounts` is the counting loop run on the keys of the field. -/
theorem getCounts_eq_tally (filtered : List Record) (key : String) :
    getCounts filtered key = tally (fieldKeys filtered key) := by
  unfold getCounts tally fieldKeys
  rw [List.foldl_map]
  rfl

/-- One more key at the end is added to the first-seen keys unless it is there. -/
theorem firstSeen_append_singleton (ks : List String) (k : String) :
    firstSeen (ks ++ [k]) = if k ∈ firstSeen ks then firstSeen ks else firstSeen ks ++ [k] := by
  simp [firstSeen, List.foldl_append]

/-- The first-seen keys are the keys of the list. -/
theorem mem_firstSeen {ks : List String} {k : String} : k ∈ firstSeen ks ↔ k ∈ ks := by
  induction ks using List.reverseRecOn with
  | nil => simp [firstSeen]
  | append_singleton l a ih =>
    rw [firstSeen_append_singleton]
    by_cases ha : a ∈ firstSeen l
    · rw [if_pos ha]
      constructor
      · intro h
        exact List.mem_append_left _ (ih.1 h)
      · intro h
        rcases List.mem_append.1 h with h | h
        · exact ih.2 h
        · rw [List.mem_singleton] at h
          rw [h]
          exact ha
    · rw [if_neg ha]
      simp [ih]

/-- No key occurs twice among the first-seen keys. -/
theorem nodup_firstSeen (ks : List String) : (firstSeen ks).Nodup := by
  induction ks using List.reverseRecOn with
  | nil => simp [firstSeen]
  | append_singleton l a ih =>
    rw [firstSeen_append_singleton]
    by_cases ha : a ∈ firstSeen l
    · rw [if_pos ha]
      exact ih
    · rw [if_neg ha]
      exact List.Nodup.append ih (List.nodup_singleton a) (by simpa using ha)

/-- Looking a key up in a list of pairs computed from their keys. -/
theorem lookup_map_key {β : Type} (g : String → β) (l : List String) (k : String) :
    List.lookup k (l.map fun x => (x, g x)) = if k ∈ l then some (g k) else none := by
  induction l with
  | nil => rfl
  | cons a l ih =>
    simp only [List.map, List.lookup_cons, List.mem_cons]
    by_cases h : k = a
    · subst h
      simp
    · have : (k == a) = false := by simpa using h
      rw [this, ih]
      simp [h]

/-- Defining a key that is present replaces its value in place. -/
theorem define_map_of_mem (g : String → JSVal) (l : List String) (k : String) (v : JSVal)
    (hk : k ∈ l) (hl : l.Nodup) :
    JSObject.define (l.map fun x => (x, g x)) k v
      = l.map fun x => (x, if x = k then v else g x) := by
  induction l with
  | nil => simp at hk
  | cons a l ih =>
    rw [List.nodup_cons] at hl
    simp only [List.map, JSObject.define]
    by_cases h : a = k
    · subst h
      simp only [if_true, List.cons.injEq, true_and]
      apply List.map_congr_left
      intro x hx
      have : x ≠ a := fun e => hl.1 (e ▸ hx)
      simp [this]
    · rw [if_neg h, if_neg h]
      have hk' : k ∈ l := by
        rcases List.mem_cons.1 hk with e | e
        · exact absurd e.symm h
        · exact e
      rw [ih hk' hl.2]

/-- Defining a key that is absent appends the property. -/
theorem define_map_of_not_mem (g : String → JSVal) (l : List String) (k : String) (v : JSVal)
    (hk : k ∉ l) :
    JSObject.define (l.map fun x => (x, g x)) k v = (l.map fun x => (x, g x)) ++ [(k, v)] := by
  induction l with
  | nil => rfl
  | cons a l ih =>
    simp only [List.mem_cons, not_or] at hk
    simp only [List.map, JSObject.define, List.cons_append]
    rw [if_neg (fun e => hk.1 e.symm), ih hk.2]

/-- A key that is not an inherited name is not found on the prototype. -/
theorem lookup_prototype_of_not_inherited (k : String) (hk : k ∉ inheritedNames) :
    objectPrototypeMembers.lookup k = none := by
  rw [List.lookup_eq_none_iff]
  intro p hp
  simp only [bne_iff_ne, ne_eq]
  intro e
  apply hk
  rw [e]
  exact List.mem_map_of_mem _ hp

/-- The counting loop, when no key is an inherited name: one property per distinct key, in
first-seen order, holding the number of occurrences of the key. -/
theorem tally_eq (ks : List String) (h : ∀ k ∈ ks, k ∉ inheritedNames) :
    tally ks = (firstSeen ks).map fun k => (k, JSVal.num (.dec (ks.count k) 0)) := by
  induction ks using List.reverseRecOn with
  | nil => rfl
  | append_singleton l a ih =>
    have hl : ∀ k ∈ l, k ∉ inheritedNames := fun k hk => h k (List.mem_append_left _ hk)
    have ha : a ∉ inheritedNames := h a (by simp)
    have hstep : tally (l ++ [a]) = (tally l).set a
        (jsPlus (jsOr ((tally l).get a) (.num (.dec 0 0))) (.num (.dec 1 0))) := by
      simp [tally, List.foldl_append]
    rw [hstep, ih hl, firstSeen_append_singleton]
    unfold JSObject.set JSObject.get
    rw [lookup_map_key]
    by_cases hm : a ∈ firstSeen l
    · have hal : a ∈ l := mem_firstSeen.1 hm
      have hpos : 0 < l.count a := List.count_pos_iff.2 hal
      have hne : ((l.count a : Nat) : Int) ≠ 0 := by omega
      rw [if_pos hm, if_pos hm]
      simp only [Option.isNone_some, Bool.false_eq_true, false_and, if_false]
      have hv : jsPlus (jsOr (JSVal.num (.dec (l.count a) 0)) (.num (.dec 0 0))) (.num (.dec 1 0))
          = JSVal.num (.dec ((l.count a : Nat) + 1) 0) := by
        simp [jsOr, toBoolean, hne, jsPlus, JSNum.add]
      rw [hv, define_map_of_mem _ _ _ _ hm (nodup_firstSeen l)]
      apply List.map_congr_left
      intro x hx
      by_cases hxa : x = a
      · subst hxa
        simp
      · simp [hxa, List.count_append, List.count_singleton]
    · have hal : a ∉ l := fun e => hm (mem_firstSeen.2 e)
      rw [if_neg hm, if_neg hm]
      have hproto : a ≠ "__proto__" := by
        intro e
        apply ha
        rw [e]
        decide
      rw [lookup_prototype_of_not_inherited a ha]
      simp only [hproto, and_false, if_false]
      have hv : jsPlus (jsOr ((none : Option JSVal).getD JSVal.undefined) (.num (.dec 0 0)))
          (.num (.dec 1 0)) = JSVal.num (.dec 1 0) := by
        simp [jsOr, toBoolean, jsPlus, JSNum.add]
      rw [hv, define_map_of_not_mem _ _ _ _ hm, List.map_append]
      congr 1
      · apply List.map_congr_left
        intro x hx
        have hxa : x ≠ a := fun e => hm (e ▸ hx)
        simp [List.count_append, List.count_singleton, hxa]
      · simp [List.count_append, List.count_eq_zero_of_not_mem hal]

/-! ### Entries and `getTop` -/

/-- The entries of an object are its own properties in another order. -/
theorem entries_perm (o : JSObject) : o.entries.Perm o := by
  unfold JSObject.entries
  refine ((List.perm_insertionSort _ _).append_right _).trans ?_
  have h := List.filter_append_perm (fun p : String × JSVal => (arrayIndex? p.1).isSome) o
  have e : (fun p : String × JSVal => (arrayIndex? p.1).isNone)
      = fun p : String × JSVal => !(arrayIndex? p.1).isSome := by
    funext p
    cases arrayIndex? p.1 <;> rfl
  rw [e]
  exact h

/-- A pair is an entry exactly when it is an own property. -/
theorem mem_entries {o : JSObject} {p : String × JSVal} : p ∈ o.entries ↔ p ∈ o :=
  (entries_perm o).mem_iff

/-- An object has as many entries as own properties. -/
theorem length_entries (o : JSObject) : o.entries.length = o.length :=
  (entries_perm o).length_eq

/-- An object has as many keys as own properties. -/
theorem length_keys (o : JSObject) : o.keys.length = o.length := by
  simp [JSObject.keys, length_entries]

/-- The function `getTop` takes a prefix of the sorted entries. -/
theorem getTop_eq_take (obj : JSObject) (n : Int) :
    getTop obj n = (arraySort (fun a b => (toNumber b.2).sub (toNumber a.2)) obj.entries).take
      ((if n < 0 then max ((obj.length : Int) + n) 0 else min n obj.length).toNat) := by
  simp [getTop, arraySlice0, arraySort, List.length_insertionSort, length_entries]

/-- The number of pairs that `getTop` returns. -/
theorem length_getTop (obj : JSObject) (n : Int) :
    (getTop obj n).length
      = (if n < 0 then max ((obj.length : Int) + n) 0 else min n obj.length).toNat := by
  rw [getTop_eq_take, List.length_take, arraySort, List.length_insertionSort, length_entries]
  split <;> omega

/-- Claim C6, amended: for every object and every integer `n ≤ 0`, `getTop(obj, n)` is the
first `max (k + n) 0` pairs of the fully sorted list when `n` is negative, `k` being the
number of keys, and no pair when `n = 0`; so it is empty exactly when `n = 0` or
`k ≤ -n`. -/
theorem getTop_nonpositive (obj : JSObject) (n : Int) (hn : n ≤ 0) :
    getTop obj n = (getTop obj obj.keys.length).take
        (if n = 0 then 0 else ((obj.keys.length : Int) + n).toNat) ∧
      (getTop obj n = [] ↔ n = 0 ∨ (obj.keys.length : Int) ≤ -n) := by
  rw [length_keys]
  constructor
  · rw [getTop_eq_take, getTop_eq_take, List.take_take]
    congr 1
    split <;> split <;> omega
  · rw [← List.length_eq_zero, length_getTop]
    split <;> omega

/-- The sign of an integer is at most zero exactly when the integer is. -/
theorem int_sign_nonpos (x : Int) : x.sign ≤ 0 ↔ x ≤ 0 := by
  rcases lt_trichotomy x 0 with h | h | h
  · rw [Int.sign_eq_neg_one_of_neg h]
    omega
  · rw [h]
    simp
  · rw [Int.sign_eq_one_of_pos h]
    omega

/-- The comparator `b[1] - a[1]` on two counts. -/
theorem sortSign_sub_counts (a b : Nat) :
    ((toNumber (JSVal.num (.dec b 0))).sub (toNumber (JSVal.num (.dec a 0)))).sortSign ≤ 0
      ↔ b ≤ a := by
  simp only [toNumber, JSNum.sub, JSNum.neg, JSNum.add, JSNum.sortSign]
  simp only [min_self, sub_self, Int.toNat_zero, pow_zero, mul_one]
  rw [int_sign_nonpos]
  omega

/-- The count held by a count. -/
theorem countOf_count (c : Nat) : countOf (JSVal.num (.dec c 0)) = c := by
  simp [countOf]

/-- On a list of counts the sort by `b[1] - a[1]` is the stable sort by descending count. -/
theorem arraySort_counts (l : List (String × JSVal))
    (h : ∀ p ∈ l, ∃ c : Nat, p.2 = JSVal.num (.dec c 0)) :
    arraySort (fun a b => (toNumber b.2).sub (toNumber a.2)) l
      = l.insertionSort fun p q => countOf q.2 ≤ countOf p.2 := by
  have key := List.map_insertionSort
    (fun a b : String × JSVal => ((toNumber b.2).sub (toNumber a.2)).sortSign ≤ 0)
    (fun p q : String × JSVal => countOf q.2 ≤ countOf p.2) id l
    (by
      intro a ha b hb
      obtain ⟨ca, hca⟩ := h a ha
      obtain ⟨cb, hcb⟩ := h b hb
      simp only [id, hca, hcb, sortSign_sub_counts, countOf_count])
  simpa [arraySort] using key

/-- Claim C4: for every count map and every `n`, the list that `getTop` returns is ordered by
count descending, and a pair of the map that is not returned has a count no greater than
the count of any returned pair. -/
theorem getTop_sorted_desc (obj : JSObject) (n : Int) (h : IsCountMap obj) :
    (getTop obj n).Pairwise (fun p q => countOf q.2 ≤ countOf p.2) ∧
      ∀ p ∈ obj.entries, p ∉ getTop obj n → ∀ q ∈ getTop obj n, countOf p.2 ≤ countOf q.2 := by
  have hT : IsTotal (String × JSVal) (fun p q => countOf q.2 ≤ countOf p.2) :=
    ⟨fun p q => le_total _ _⟩
  have hR : IsTrans (String × JSVal) (fun p q => countOf q.2 ≤ countOf p.2) :=
    ⟨fun p q r hpq hqr => le_trans hqr hpq⟩
  have hsorted : (obj.entries.insertionSort fun p q => countOf q.2 ≤ countOf p.2).Sorted
      (fun p q => countOf q.2 ≤ countOf p.2) := List.sorted_insertionSort _ _
  have hsort := arraySort_counts obj.entries (fun p hp => h p (mem_entries.1 hp))
  rw [getTop_eq_take, hsort]
  generalize (if n < 0 then max ((obj.length : Int) + n) 0 else min n obj.length).toNat = m
  constructor
  · exact hsorted.sublist (List.take_sublist _ _)
  · intro p hp hnot q hq
    have hp' : p ∈ obj.entries.insertionSort fun p q => countOf q.2 ≤ countOf p.2 :=
      (List.mem_insertionSort _).2 hp
    rw [← List.take_append_drop m (obj.entries.insertionSort _)] at hp'
    rcases List.mem_append.1 hp' with hin | hin
    · exact absurd hin hnot
    · exact hsorted.rel_of_mem_take_of_mem_drop hq hin

/-! ### Order of ties -/

/-- A key seen first before another precedes it among the first-seen keys. -/
theorem pair_sublist_firstSeen (ks : List String) (k₁ k₂ : String) (h₂ : k₂ ∈ ks)
    (h : ks.indexOf k₁ < ks.indexOf k₂) : List.Sublist [k₁, k₂] (firstSeen ks) := by
  induction ks using List.reverseRecOn with
  | nil => simp at h₂
  | append_singleton l a ih =>
    have hlen : (l ++ [a]).indexOf k₂ < (l ++ [a]).length := List.indexOf_lt_length.2 h₂
    have h₁l : k₁ ∈ l := by
      by_contra hn
      rw [List.indexOf_append_of_not_mem hn] at h
      simp only [List.length_append, List.length_singleton] at hlen
      omega
    have hsub : List.Sublist (firstSeen l) (firstSeen (l ++ [a])) := by
      rw [firstSeen_append_singleton]
      split
      · exact List.Sublist.refl _
      · exact List.sublist_append_left _ _
    by_cases h₂l : k₂ ∈ l
    · rw [List.indexOf_append_of_mem h₁l, List.indexOf_append_of_mem h₂l] at h
      exact (ih h₂l h).trans hsub
    · have hka : k₂ = a := by
        rcases List.mem_append.1 h₂ with e | e
        · exact absurd e h₂l
        · simpa using e
      subst hka
      rw [firstSeen_append_singleton, if_neg (fun e => h₂l (mem_firstSeen.1 e))]
      exact List.Sublist.append (List.singleton_sublist.2 (mem_firstSeen.2 h₁l))
        (List.Sublist.refl [k₂])

/-- Two members of a sorted list stand in the order that the relation forces. -/
theorem pair_sublist_of_sorted {α : Type} {r : α → α → Prop} {a b : α} (hne : a ≠ b)
    (hab : ¬ r b a) : ∀ (l : List α), l.Sorted r → a ∈ l → b ∈ l → List.Sublist [a, b] l
  | [], _, ha, _ => by simp at ha
  | x :: t, hs, ha, hb => by
    rw [List.sorted_cons] at hs
    rcases List.mem_cons.1 ha with e | ha'
    · subst e
      rcases List.mem_cons.1 hb with e | hb'
      · exact absurd e.symm hne
      · exact List.Sublist.cons₂ _ (List.singleton_sublist.2 hb')
    · rcases List.mem_cons.1 hb with e | hb'
      · subst e
        exact absurd (hs.1 a ha') hab
      · exact (pair_sublist_of_sorted hne hab t hs.2 ha' hb').cons _

/-- A pair in order in a list without repetition is in order in every prefix holding its
second member. -/
theorem pair_sublist_take {α : Type} {a b : α} (l : List α) (m : Nat) (hnd : l.Nodup)
    (h : List.Sublist [a, b] l) (hb : b ∈ l.take m) : List.Sublist [a, b] (l.take m) := by
  rw [← List.take_append_drop m l] at h hnd
  obtain ⟨a₁, a₂, heq, h₁, h₂⟩ := List.sublist_append_iff.1 h
  have hdisj : b ∉ l.drop m := fun hd => (List.nodup_append.1 hnd).2.2 hb hd
  rcases a₂ with _ | ⟨y, t⟩
  · rw [List.append_nil] at heq
    rw [heq]
    exact h₁
  · exfalso
    apply hdisj
    apply h₂.subset
    have hlast : ([a, b] : List α).getLast? = (a₁ ++ y :: t).getLast? := by rw [heq]
    rw [List.getLast?_append] at hlast
    have : (y :: t).getLast? = some b := by
      cases hyt : (y :: t).getLast? with
      | none => simp at hyt
      | some z =>
        rw [hyt] at hlast
        simp at hlast
        rw [hlast]
    exact List.mem_of_getLast?_eq_some this

/-- The count map of a field none of whose keys is an inherited name. -/
theorem getCounts_eq (filtered : List Record) (field : String)
    (h : ∀ k ∈ fieldKeys filtered field, k ∉ inheritedNames) :
    getCounts filtered field = (firstSeen (fieldKeys filtered field)).map
      fun k => (k, JSVal.num (.dec ((fieldKeys filtered field).count k) 0)) := by
  rw [getCounts_eq_tally, tally_eq _ h]

/-- Such a count map holds counts only. -/
theorem isCountMap_getCounts (filtered : List Record) (field : String)
    (h : ∀ k ∈ fieldKeys filtered field, k ∉ inheritedNames) :
    IsCountMap (getCounts filtered field) := by
  rw [getCounts_eq _ _ h]
  intro p hp
  obtain ⟨k, _, rfl⟩ := List.mem_map.1 hp
  exact ⟨_, rfl⟩

/-- Such a count map holds no pair twice. -/
theorem nodup_getCounts (filtered : List Record) (field : String)
    (h : ∀ k ∈ fieldKeys filtered field, k ∉ inheritedNames) :
    (getCounts filtered field).Nodup := by
  rw [getCounts_eq _ _ h]
  exact (nodup_firstSeen _).map (fun a b e => by simpa using congrArg Prod.fst e)

/-- Such a count map has one property per distinct key. -/
theorem length_getCounts (filtered : List Record) (field : String)
    (h : ∀ k ∈ fieldKeys filtered field, k ∉ inheritedNames) :
    (getCounts filtered field).length = (fieldKeys filtered field).toFinset.card := by
  rw [getCounts_eq _ _ h, List.length_map, ← List.toFinset_card_of_nodup (nodup_firstSeen _)]
  congr 1
  ext k
  simp [mem_firstSeen]

/-- Claim C3, amended: when no key is a name inherited from `Object.prototype`, two keys with
equal counts are listed by `getTop` in the order in which the object enumerates them:
array-index keys first and in ascending numeric order, then the other keys in the order
in which their values were first seen in the record list. -/
theorem getTop_ties_enumeration_order (filtered : List Record) (field : String) (n : Int)
    (k₁ k₂ : String) (c : JSVal)
    (hkeys : ∀ k ∈ fieldKeys filtered field, k ∉ inheritedNames)
    (h₁ : (k₁, c) ∈ (getCounts filtered field).entries)
    (h₂ : (k₂, c) ∈ getTop (getCounts filtered field) n)
    (hbefore : enumeratedBefore (fieldKeys filtered field) k₁ k₂) :
    List.Sublist [(k₁, c), (k₂, c)] (getTop (getCounts filtered field) n) := by
  have hobj := getCounts_eq filtered field hkeys
  have hcm := isCountMap_getCounts filtered field hkeys
  have hnd := nodup_getCounts filtered field hkeys
  generalize hks : fieldKeys filtered field = ks at *
  generalize ho : getCounts filtered field = obj at *
  rw [getTop_eq_take] at h₂ ⊢
  generalize (if n < 0 then max ((obj.length : Int) + n) 0 else min n obj.length).toNat = m at *
  have h₁o : (k₁, c) ∈ obj := mem_entries.1 h₁
  have h₂s : (k₂, c) ∈ arraySort (fun a b => (toNumber b.2).sub (toNumber a.2)) obj.entries :=
    List.mem_of_mem_take h₂
  have h₂e : (k₂, c) ∈ obj.entries := (List.mem_insertionSort _).1 h₂s
  have h₂o : (k₂, c) ∈ obj := mem_entries.1 h₂e
  -- the two pairs stand in this order among the entries
  have hentries : List.Sublist [(k₁, c), (k₂, c)] obj.entries := by
    unfold enumeratedBefore at hbefore
    unfold JSObject.entries
    cases hi : arrayIndex? k₁ with
    | some i =>
      have hf₁ : (k₁, c) ∈ obj.filter fun p => (arrayIndex? p.1).isSome := by
        simp [List.mem_filter, h₁o, hi]
      cases hj : arrayIndex? k₂ with
      | some j =>
        rw [hi, hj] at hbefore
        simp only at hbefore
        have hf₂ : (k₂, c) ∈ obj.filter fun p => (arrayIndex? p.1).isSome := by
          simp [List.mem_filter, h₂o, hj]
        have hT : IsTotal (String × JSVal)
            (fun a b => (arrayIndex? a.1).getD 0 ≤ (arrayIndex? b.1).getD 0) :=
          ⟨fun a b => le_total _ _⟩
        have hR : IsTrans (String × JSVal)
            (fun a b => (arrayIndex? a.1).getD 0 ≤ (arrayIndex? b.1).getD 0) :=
          ⟨fun a b c hab hbc => le_trans hab hbc⟩
        refine (pair_sublist_of_sorted ?_ ?_ _ (List.sorted_insertionSort _ _)
          ((List.mem_insertionSort _).2 hf₁) ((List.mem_insertionSort _).2 hf₂)).trans
          (List.sublist_append_left _ _)
        · intro e
          have : k₁ = k₂ := congrArg Prod.fst e
          rw [this, hj] at hi
          simp only [Option.some.injEq] at hi
          omega
        · simp only [hi, hj, Option.getD_some]
          omega
      | none =>
        have hf₂ : (k₂, c) ∈ obj.filter fun p => (arrayIndex? p.1).isNone := by
          simp [List.mem_filter, h₂o, hj]
        exact List.Sublist.append
          (List.singleton_sublist.2 ((List.mem_insertionSort _).2 hf₁))
          (List.singleton_sublist.2 hf₂)
    | none =>
      cases hj : arrayIndex? k₂ with
      | some j =>
        rw [hi, hj] at hbefore
        exact absurd hbefore (by simp)
      | none =>
        rw [hi, hj] at hbefore
        simp only at hbefore
        have hk₂ : k₂ ∈ ks := by
          rw [hobj] at h₂o
          obtain ⟨k, hk, e⟩ := List.mem_map.1 h₂o
          have : k = k₂ := congrArg Prod.fst e
          rw [← this]
          exact mem_firstSeen.1 hk
        have hsub := (pair_sublist_firstSeen ks k₁ k₂ hk₂ hbefore).map
          (fun k => (k, JSVal.num (.dec (ks.count k) 0)))
        rw [← hobj] at hsub
        have hc₁ : JSVal.num (.dec (ks.count k₁) 0) = c := by
          rw [hobj] at h₁o
          obtain ⟨k, _, e⟩ := List.mem_map.1 h₁o
          have hk : k = k₁ := congrArg Prod.fst e
          have hv := congrArg Prod.snd e
          rw [hk] at hv
          exact hv
        have hc₂ : JSVal.num (.dec (ks.count k₂) 0) = c := by
          rw [hobj] at h₂o
          obtain ⟨k, _, e⟩ := List.mem_map.1 h₂o
          have hk : k = k₂ := congrArg Prod.fst e
          have hv := congrArg Prod.snd e
          rw [hk] at hv
          exact hv
        simp only [List.map, hc₁, hc₂] at hsub
        have hfil := hsub.filter (fun p : String × JSVal => (arrayIndex? p.1).isNone)
        simp only [List.filter, hi, hj, Option.isNone_none] at hfil
        exact hfil.trans (List.sublist_append_right _ _)
  -- the sort keeps the order of pairs with equal counts
  obtain ⟨cnt, hcnt⟩ := hcm _ h₁o
  simp only at hcnt
  have hrel : ((toNumber (k₂, c).2).sub (toNumber (k₁, c).2)).sortSign ≤ 0 := by
    simp only [hcnt]
    exact (sortSign_sub_counts cnt cnt).2 le_rfl
  have hsorted : List.Sublist [(k₁, c), (k₂, c)]
      (arraySort (fun a b => (toNumber b.2).sub (toNumber a.2)) obj.entries) :=
    List.pair_sublist_insertionSort hrel hentries
  have hnds : (arraySort (fun a b => (toNumber b.2).sub (toNumber a.2)) obj.entries).Nodup :=
    ((List.perm_insertionSort _ _).trans (entries_perm obj)).nodup_iff.2 hnd
  exact pair_sublist_take _ m hnds hsorted h₂

/-- Claim C3 as stated fails: with model years 2020 and then 2019, both counted once, `getTop`
lists "2019" before "2020" although 2020 was seen first. -/
theorem ties_not_first_seen_for_index_keys :
    ¬ TiesInFirstSeenOrder
      [[("Model Year", .num (.dec 2020 0))], [("Model Year", .num (.dec 2019 0))]]
      "Model Year" 2 := by
  intro h
  have hsub := h "2020" "2019" (.num (.dec 1 0)) (by decide) (by decide) (by decide)
  revert hsub
  decide

/-- Claim C3, amended, at the records of the specification filtered by city "Seattle": "Tesla"
precedes "Nissan", and `getTop(getCounts("Make"), 1)` is `[["Tesla", 1]]`. -/
theorem getTop_ties_enumeration_order_example :
    List.Sublist [("Tesla", JSVal.num (.dec 1 0)), ("Nissan", JSVal.num (.dec 1 0))]
        (getTop (getCounts (filterEffect
          [[("City", .str "Seattle"), ("Make", .str "Tesla")],
           [("City", .str "Seattle"), ("Make", .str "Nissan")],
           [("City", .str "Bellevue"), ("Make", .str "Tesla")]] ⟨"Seattle", ""⟩) "Make") 2) ∧
      getTop (getCounts (filterEffect
          [[("City", .str "Seattle"), ("Make", .str "Tesla")],
           [("City", .str "Seattle"), ("Make", .str "Nissan")],
           [("City", .str "Bellevue"), ("Make", .str "Tesla")]] ⟨"Seattle", ""⟩) "Make") 1
        = [("Tesla", JSVal.num (.dec 1 0))] :=
  ⟨getTop_ties_enumeration_order _ "Make" 2 "Tesla" "Nissan" (.num (.dec 1 0))
      (by decide) (by decide) (by decide) (by decide),
    by decide⟩

/-- Claim C5, amended: for every record list, field and integer `n ≥ 0`, when no key is a name
inherited from `Object.prototype`, the length of `getTop(getCounts(f), n)` is the minimum
of `n` and the number of distinct property keys of the values of the field, and when
that number is at most `n` every key is returned. -/
theorem length_getTop_getCounts (filtered : List Record) (field : String) (n : Int)
    (hn : 0 ≤ n) (hkeys : ∀ k ∈ fieldKeys filtered field, k ∉ inheritedNames) :
    ((getTop (getCounts filtered field) n).length : Int)
        = min n ((fieldKeys filtered field).toFinset.card : Int) ∧
      (((fieldKeys filtered field).toFinset.card : Int) ≤ n →
        ∀ k ∈ fieldKeys filtered field, k ∈ (getTop (getCounts filtered field) n).map Prod.fst) := by
  have hlen := length_getCounts filtered field hkeys
  constructor
  · rw [length_getTop, hlen]
    split <;> omega
  · intro hle k hk
    rw [getTop_eq_take, List.take_of_length_le]
    · rw [arraySort]
      have hperm := ((List.perm_insertionSort
        (fun a b : String × JSVal => ((toNumber b.2).sub (toNumber a.2)).sortSign ≤ 0)
        (getCounts filtered field).entries).trans (entries_perm _)).map Prod.fst
      rw [hperm.mem_iff, getCounts_eq _ _ hkeys, List.map_map]
      exact List.mem_map.2 ⟨k, mem_firstSeen.2 hk, rfl⟩
    · rw [arraySort, List.length_insertionSort, length_entries, hlen]
      split <;> omega

/-- Claim C5, amended, at three records with two makes and `n = 5`. -/
theorem length_getTop_getCounts_example :
    ((getTop (getCounts [[("Make", .str "Tesla")], [("Make", .str "Nissan")],
        [("Make", .str "Tesla")]] "Make") 5).length : Int)
        = min 5 ((fieldKeys [[("Make", .str "Tesla")], [("Make", .str "Nissan")],
          [("Make", .str "Tesla")]] "Make").toFinset.card : Int) ∧
      (((fieldKeys [[("Make", .str "Tesla")], [("Make", .str "Nissan")],
          [("Make", .str "Tesla")]] "Make").toFinset.card : Int) ≤ 5 →
        ∀ k ∈ fieldKeys [[("Make", .str "Tesla")], [("Make", .str "Nissan")],
          [("Make", .str "Tesla")]] "Make",
          k ∈ (getTop (getCounts [[("Make", .str "Tesla")], [("Make", .str "Nissan")],
            [("Make", .str "Tesla")]] "Make") 5).map Prod.fst) :=
  length_getTop_getCounts _ "Make" 5 (by decide) (by decide)

/-- Claim C5 as stated fails: a record whose make is the string "undefined" and a record
without a make hold two distinct values that share the key "undefined", so one pair is
returned and not two. -/
theorem length_getTop_not_distinct_values :
    ((getTop (getCounts [[("City", .str "Kent"), ("Make", .str "undefined")],
        [("City", .str "Kent")]] "Make") 5).length : Int)
      ≠ min 5 (distinctValueCount [[("City", .str "Kent"), ("Make", .str "undefined")],
        [("City", .str "Kent")]] "Make") := by
  decide

/-- Claim C4 at a count map of three makes and `n = 2`. -/
theorem getTop_sorted_desc_example :
    IsCountMap [("Tesla", .num (.dec 2 0)), ("Nissan", .num (.dec 1 0)), ("Kia", .num (.dec 3 0))] ∧
      ((getTop [("Tesla", .num (.dec 2 0)), ("Nissan", .num (.dec 1 0)),
          ("Kia", .num (.dec 3 0))] 2).Pairwise (fun p q => countOf q.2 ≤ countOf p.2) ∧
        ∀ p ∈ JSObject.entries [("Tesla", .num (.dec 2 0)), ("Nissan", .num (.dec 1 0)),
            ("Kia", .num (.dec 3 0))],
          p ∉ getTop [("Tesla", .num (.dec 2 0)), ("Nissan", .num (.dec 1 0)),
            ("Kia", .num (.dec 3 0))] 2 →
          ∀ q ∈ getTop [("Tesla", .num (.dec 2 0)), ("Nissan", .num (.dec 1 0)),
            ("Kia", .num (.dec 3 0))] 2, countOf p.2 ≤ countOf q.2) :=
  have h : IsCountMap [("Tesla", .num (.dec 2 0)), ("Nissan", .num (.dec 1 0)),
      ("Kia", .num (.dec 3 0))] := by
    intro p hp
    simp only [List.mem_cons, List.mem_singleton, List.not_mem_nil, or_false] at hp
    rcases hp with rfl | rfl | rfl
    · exact ⟨2, rfl⟩
    · exact ⟨1, rfl⟩
    · exact ⟨3, rfl⟩
  ⟨h, getTop_sorted_desc _ 2 h⟩

/-- Claim C6 as stated fails: `getTop({a: 2, b: 1}, -1)` is `[["a", 2]]`, not the empty list. -/
theorem getTop_negative_counterexample :
    (-1 : Int) ≤ 0 ∧
      getTop [("a", .num (.dec 2 0)), ("b", .num (.dec 1 0))] (-1)
        = [("a", .num (.dec 2 0))] ∧
      getTop [("a", .num (.dec 2 0)), ("b", .num (.dec 1 0))] (-1) ≠ [] := by
  decide

/-- Claim C6, amended, at the count map `{a: 2, b: 1}` and `n = -1`. -/
theorem getTop_nonpositive_example :
    getTop [("a", .num (.dec 2 0)), ("b", .num (.dec 1 0))] (-1)
        = (getTop [("a", .num (.dec 2 0)), ("b", .num (.dec 1 0))]
            (JSObject.keys [("a", .num (.dec 2 0)), ("b", .num (.dec 1 0))]).length).take
          (if (-1 : Int) = 0 then 0
            else (((JSObject.keys [("a", .num (.dec 2 0)), ("b", .num (.dec 1 0))]).length : Int)
              + -1).toNat) ∧
      (getTop [("a", .num (.dec 2 0)), ("b", .num (.dec 1 0))] (-1) = [] ↔
        (-1 : Int) = 0 ∨
          ((JSObject.keys [("a", .num (.dec 2 0)), ("b", .num (.dec 1 0))]).length : Int)
            ≤ -(-1)) :=
  getTop_nonpositive _ (-1) (by decide)

/-- Claim C2, the code at failing inputs: one record whose make is "__proto__" leaves the
count map empty, so its values sum to 0 and not to 1; two records whose make is
"constructor" leave a string, not the count 2. -/
theorem getCounts_inherited_key_failing :
    getCounts [[("Make", .str "__proto__")]] "Make" = [] ∧
    valuesSum (getCounts [[("Make", .str "__proto__")]] "Make") = .num (.dec 0 0) ∧
    ([[("Make", JSVal.str "__proto__")]] : List Record).length = 1 ∧
    getCounts [[("Make", .str "constructor")], [("Make", .str "constructor")]] "Make"
      = [("constructor", .str "function Object() \x7b [native code] \x7d11")] := by
  decide

/-! ### Decimal digits and numerals -/

/-- A decimal digit is a character from 48 to 57. -/
theorem isDigit_iff (c : Char) : c.isDigit = true ↔ 48 ≤ c.toNat ∧ c.toNat ≤ 57 := by
  unfold Char.isDigit
  have h1 : (c.val ≥ 48) ↔ 48 ≤ c.toNat := by
    show (48 : UInt32) ≤ c.val ↔ _
    rw [UInt32.le_def]
    rfl
  have h2 : (c.val ≤ 57) ↔ c.toNat ≤ 57 := by
    rw [UInt32.le_def]
    rfl
  simp [h1, h2]

/-- The value of a character as a decimal digit. -/
theorem digitOfChar_ten (c : Char) :
    digitOfChar 10 c = if c.isDigit then some (c.toNat - 48) else none := by
  unfold digitOfChar
  by_cases hd : c.isDigit = true
  · have h := (isDigit_iff c).1 hd
    have : c.toNat - 48 < 10 := by omega
    simp [hd, h, this]
  · have h := fun e => hd ((isDigit_iff c).2 e)
    rw [if_neg hd]
    simp only
    split
    · rename_i h'
      exact absurd h' h
    · split
      · have : ¬ c.toNat - 87 < 10 := by omega
        simp [this]
      · split
        · have : ¬ c.toNat - 55 < 10 := by omega
          simp [this]
        · rfl

/-- The digits of radix 10 are the decimal digits. -/
theorem isRadixDigit_ten (c : Char) : isRadixDigit 10 c = c.isDigit := by
  unfold isRadixDigit
  rw [digitOfChar_ten]
  by_cases hd : c.isDigit = true <;> simp [hd]

/-- A defined property is found. -/
theorem lookup_define_same (o : JSObject) (k : String) (v : JSVal) :
    (o.define k v).lookup k = some v := by
  induction o with
  | nil => simp [JSObject.define, List.lookup_cons]
  | cons p rest ih =>
    obtain ⟨a, w⟩ := p
    simp only [JSObject.define]
    by_cases h : a = k
    · simp [h, List.lookup_cons]
    · have : (k == a) = false := by simpa using fun e => h e.symm
      rw [if_neg h]
      simp only [List.lookup_cons, this]
      exact ih

/-- Defining a property leaves the others as they are. -/
theorem lookup_define_ne (o : JSObject) (k k' : String) (v : JSVal) (hne : k' ≠ k) :
    (o.define k v).lookup k' = o.lookup k' := by
  induction o with
  | nil =>
    have : (k' == k) = false := by simpa using hne
    simp [JSObject.define, List.lookup_cons, this]
  | cons p rest ih =>
    obtain ⟨a, w⟩ := p
    simp only [JSObject.define]
    by_cases h : a = k
    · subst h
      have : (k' == a) = false := by simpa using hne
      simp [List.lookup_cons, this]
    · rw [if_neg h]
      simp only [List.lookup_cons]
      cases (k' == a)
      · exact ih
      · rfl

/-- Reading a defined property. -/
theorem get_define_same (o : JSObject) (k : String) (v : JSVal) : (o.define k v).get k = v := by
  simp [JSObject.get, lookup_define_same]

/-- Reading another property than the defined one. -/
theorem get_define_ne (o : JSObject) (k k' : String) (v : JSVal) (hne : k' ≠ k) :
    (o.define k v).get k' = o.get k' := by
  simp [JSObject.get, lookup_define_ne _ _ _ _ hne]

/-- A record that the normalizer returns is the row with its five properties defined. -/
theorem cleanItem_ok (item : RawRecord) (r : Record) (hok : cleanItem item = .ok r) :
    ∃ latitude longitude : JSVal,
      r = (((((rawObject item).define "Model Year"
          (.num (parseInt ((rawObject item).get "Model Year")))).define "Electric Range"
          (.num (parseInt ((rawObject item).get "Electric Range")))).define "Base MSRP"
          (.num (parseInt ((rawObject item).get "Base MSRP")))).define "Latitude"
          (.num (parseFloat latitude))).define "Longitude" (.num (parseFloat longitude)) := by
  unfold cleanItem at hok
  cases h1 : locationToken (rawObject item) 1 '(' with
  | error e => simp [h1, bind, Except.bind] at hok
  | ok lat =>
    cases h2 : locationToken (rawObject item) 2 ')' with
    | error e => simp [h1, h2, bind, Except.bind] at hok
    | ok lon =>
      simp only [h1, h2, bind, Except.bind, pure, Except.pure, Except.ok.injEq] at hok
      exact ⟨lat, lon, hok.symm⟩

/-- The code of a digit character. -/
theorem digitChar_toNat (d : Nat) (h : d < 10) : (digitChar d).toNat = 48 + d := by
  interval_cases d <;> rfl

/-- A digit character is a decimal digit. -/
theorem digitChar_isDigit (d : Nat) (h : d < 10) : (digitChar d).isDigit = true := by
  rw [isDigit_iff, digitChar_toNat d h]
  omega

/-- The value of a digit character. -/
theorem digitOfChar_digitChar (d : Nat) (h : d < 10) : digitOfChar 10 (digitChar d) = some d := by
  rw [digitOfChar_ten, digitChar_isDigit d h, digitChar_toNat d h]
  simp

/-- Every digit is below ten. -/
theorem digitsLE_lt_ten : ∀ (fuel n : Nat), ∀ d ∈ digitsLE fuel n, d < 10
  | 0, _, d, hd => by simp [digitsLE] at hd
  | fuel + 1, n, d, hd => by
    unfold digitsLE at hd
    split at hd
    · simp only [List.mem_singleton] at hd
      omega
    · rcases List.mem_cons.1 hd with e | e
      · omega
      · exact digitsLE_lt_ten fuel (n / 10) d e

/-- A number has at least one digit. -/
theorem digitsLE_ne_nil (fuel n : Nat) : digitsLE (fuel + 1) n ≠ [] := by
  unfold digitsLE
  split <;> simp

/-- The value of a run of digits extended by one digit. -/
theorem radixValue_append_singleton (radix : Nat) (cs : List Char) (c : Char) :
    radixValue radix (cs ++ [c]) = radix * radixValue radix cs + (digitOfChar radix c).getD 0 := by
  simp [radixValue, List.foldl_append]

/-- The digits of a number denote it. -/
theorem radixValue_digitsLE : ∀ (fuel n : Nat), n < fuel →
    radixValue 10 (((digitsLE fuel n).reverse).map digitChar) = n
  | 0, _, h => by omega
  | fuel + 1, n, h => by
    unfold digitsLE
    split
    · rename_i hn
      simp [radixValue, digitOfChar_digitChar n hn]
    · rename_i hn
      rw [List.reverse_cons, List.map_append, List.map_singleton, radixValue_append_singleton,
        radixValue_digitsLE fuel (n / 10) (by omega),
        digitOfChar_digitChar _ (Nat.mod_lt n (by decide))]
      simp only [Option.getD_some]
      omega

/-- The decimal numeral of a number denotes it. -/
theorem radixValue_decimalDigits (n : Nat) : radixValue 10 (decimalDigits n) = n :=
  radixValue_digitsLE (n + 1) n (Nat.lt_succ_self n)

/-- A decimal numeral consists of decimal digits. -/
theorem decimalDigits_isDigit (n : Nat) : ∀ c ∈ decimalDigits n, c.isDigit = true := by
  intro c hc
  unfold decimalDigits at hc
  obtain ⟨d, hd, rfl⟩ := List.mem_map.1 hc
  exact digitChar_isDigit d (digitsLE_lt_ten _ _ d (List.mem_reverse.1 hd))

/-- A decimal numeral is not empty. -/
theorem decimalDigits_ne_nil (n : Nat) : decimalDigits n ≠ [] := by
  unfold decimalDigits
  simp [digitsLE_ne_nil]

/-- A run of digits is its significant part followed by zeros. -/
theorem dropTrailingZeros_append (ds : List Char) :
    dropTrailingZeros ds
      ++ List.replicate (ds.length - (dropTrailingZeros ds).length) '0' = ds := by
  unfold dropTrailingZeros
  have hsplit := List.takeWhile_append_dropWhile (fun c => c == '0') ds.reverse
  have hrep : List.takeWhile (fun c => c == '0') ds.reverse
      = List.replicate (List.takeWhile (fun c => c == '0') ds.reverse).length '0' := by
    rw [List.eq_replicate_iff]
    refine ⟨rfl, fun b hb => ?_⟩
    simpa using List.mem_takeWhile_imp hb
  have hlen : ds.length = (List.takeWhile (fun c => c == '0') ds.reverse).length
      + (List.dropWhile (fun c => c == '0') ds.reverse).length := by
    rw [← List.length_append, hsplit, List.length_reverse]
  have hds : ds = (List.dropWhile (fun c => c == '0') ds.reverse).reverse
      ++ (List.takeWhile (fun c => c == '0') ds.reverse).reverse := by
    rw [← List.reverse_append, hsplit, List.reverse_reverse]
  rw [List.length_reverse]
  conv_rhs => rw [hds, hrep, List.reverse_replicate]
  congr 2
  omega

/-- The string of a non-negative integer of at most 21 digits is its decimal numeral. -/
theorem numberToString_nat (n : Nat) (h : (decimalDigits n).length ≤ 21) :
    numberToString (.dec n 0) = String.mk (decimalDigits n) := by
  unfold numberToString
  by_cases h0 : n = 0
  · subst h0
    rfl
  · have hne : (n : Int) ≠ 0 := by omega
    have hneg : ¬ ((n : Int) < 0) := by omega
    have hle : (dropTrailingZeros (decimalDigits n)).length ≤ (decimalDigits n).length := by
      have := congrArg List.length (dropTrailingZeros_append (decimalDigits n))
      rw [List.length_append] at this
      omega
    simp only [hne, if_false, Int.natAbs_ofNat, add_zero, hneg]
    rw [if_pos ⟨by exact_mod_cast hle, by exact_mod_cast h⟩]
    congr 1
    have e : ((((decimalDigits n).length : Int)
        - ((dropTrailingZeros (decimalDigits n)).length : Int))).toNat
        = (decimalDigits n).length - (dropTrailingZeros (decimalDigits n)).length := by
      omega
    rw [e]
    exact dropTrailingZeros_append _

/-- A decimal digit is not white space. -/
theorem not_whiteSpace_of_isDigit (c : Char) (h : c.isDigit = true) :
    isStrWhiteSpace c = false := by
  have hb := (isDigit_iff c).1 h
  unfold isStrWhiteSpace
  generalize c.toNat = x at hb
  obtain ⟨h1, h2⟩ := hb
  interval_cases x <;> rfl

/-- A run of digits has no leading white space. -/
theorem dropWhile_whiteSpace_digits (cs : List Char) (h : ∀ c ∈ cs, c.isDigit = true) :
    cs.dropWhile isStrWhiteSpace = cs := by
  cases cs with
  | nil => rfl
  | cons c t =>
    rw [List.dropWhile_cons_of_neg]
    simp [not_whiteSpace_of_isDigit c (h c (by simp))]

/-- The leading digits of a run of digits are the run. -/
theorem takeWhile_isDigit_all (cs : List Char) (h : ∀ c ∈ cs, c.isDigit = true) :
    cs.takeWhile Char.isDigit = cs := by
  rw [List.takeWhile_eq_self_iff]
  exact h

/-- Nothing follows the leading digits of a run of digits. -/
theorem dropWhile_isDigit_all (cs : List Char) (h : ∀ c ∈ cs, c.isDigit = true) :
    cs.dropWhile Char.isDigit = [] := by
  rw [List.dropWhile_eq_nil_iff]
  exact h

/-- A run of decimal digits opens no non-decimal literal. -/
theorem nonDecimalPrefix_digits (cs : List Char) (h : ∀ c ∈ cs, c.isDigit = true) :
    nonDecimalPrefix cs = none := by
  unfold nonDecimalPrefix
  split <;> first
    | rfl
    | (exfalso
       have := h _ (List.mem_cons_of_mem _ (List.mem_cons_self _ _))
       revert this
       decide)

/-- A run of digits has no sign. -/
theorem takeSign_digits (cs : List Char) (h : ∀ c ∈ cs, c.isDigit = true) :
    takeSign cs = (false, cs) := by
  unfold takeSign
  split
  · exfalso
    have := h _ (List.mem_cons_self _ _)
    revert this
    decide
  · exfalso
    have := h _ (List.mem_cons_self _ _)
    revert this
    decide
  · rfl

/-- A run of digits does not open with `Infinity`. -/
theorem not_infinity_prefix_digits (cs : List Char) (h : ∀ c ∈ cs, c.isDigit = true) :
    ¬ "Infinity".data <+: cs := by
  intro hp
  have : 'I' ∈ cs := hp.subset (by decide)
  have := h _ this
  revert this
  decide

/-- A run of digits is a decimal literal as a whole. -/
theorem strDecimalPrefix_digits (cs : List Char) (h : ∀ c ∈ cs, c.isDigit = true)
    (hne : cs ≠ []) :
    strDecimalPrefix cs = some (.dec (radixValue 10 cs) 0, []) := by
  unfold strDecimalPrefix
  simp only [takeSign_digits cs h, not_infinity_prefix_digits cs h, if_false,
    takeWhile_isDigit_all cs h, dropWhile_isDigit_all cs h, hne, false_and,
    List.append_nil, signed]
  simp

/-- The number of a string of digits. -/
theorem stringToNumber_digits (cs : List Char) (h : ∀ c ∈ cs, c.isDigit = true)
    (hne : cs ≠ []) : stringToNumber (String.mk cs) = .dec (radixValue 10 cs) 0 := by
  unfold stringToNumber
  have hrev : ∀ c ∈ cs.reverse, c.isDigit = true := fun c hc => h c (List.mem_reverse.1 hc)
  simp only [dropWhile_whiteSpace_digits cs h, dropWhile_whiteSpace_digits cs.reverse hrev,
    List.reverse_reverse, hne, if_false, nonDecimalPrefix_digits cs h,
    strDecimalPrefix_digits cs h hne]

/-- The number of a decimal numeral is the number it was written from. -/
theorem stringToNumber_decimalDigits (n : Nat) :
    stringToNumber (String.mk (decimalDigits n)) = .dec n 0 := by
  rw [stringToNumber_digits _ (decimalDigits_isDigit n) (decimalDigits_ne_nil n),
    radixValue_decimalDigits]

/-- A decimal numeral is not an inherited name. -/
theorem decimalDigits_not_inherited (n : Nat) : String.mk (decimalDigits n) ∉ inheritedNames := by
  intro hmem
  have hall : ∀ name ∈ inheritedNames, name.data.all Char.isDigit = false := by decide
  have h1 := hall _ hmem
  have h2 : (decimalDigits n).all Char.isDigit = true := by
    rw [List.all_eq_true]
    exact decimalDigits_isDigit n
  simp only at h1
  rw [h2] at h1
  exact absurd h1 (by simp)

/-- The code units of a string of digits. -/
theorem utf16Units_digits (cs : List Char) (h : ∀ c ∈ cs, c.isDigit = true) :
    utf16Units (String.mk cs) = cs.map Char.toNat := by
  unfold utf16Units
  induction cs with
  | nil => rfl
  | cons c t ih =>
    have hc := (isDigit_iff c).1 (h c (by simp))
    have hlt : c.toNat < 0x10000 := by omega
    simp only [List.flatMap_cons, hlt, if_true, List.map_cons, List.singleton_append]
    rw [ih (fun x hx => h x (List.mem_cons_of_mem _ hx))]

/-- The value of a run of digits read after an accumulated value. -/
theorem radixValue_foldl (radix : Nat) (cs : List Char) (acc : Nat) :
    cs.foldl (fun a c => radix * a + (digitOfChar radix c).getD 0) acc
      = acc * radix ^ cs.length + radixValue radix cs := by
  induction cs generalizing acc with
  | nil => simp [radixValue]
  | cons c t ih =>
    unfold radixValue
    simp only [List.foldl_cons, List.length_cons, Nat.mul_zero, Nat.zero_add]
    rw [ih, ih ((digitOfChar radix c).getD 0)]
    ring

/-- The value of a run of digits by its leading digit. -/
theorem radixValue_cons (radix : Nat) (c : Char) (cs : List Char) :
    radixValue radix (c :: cs)
      = (digitOfChar radix c).getD 0 * radix ^ cs.length + radixValue radix cs := by
  conv_lhs => unfold radixValue
  simp only [List.foldl_cons, Nat.mul_zero, Nat.zero_add]
  rw [radixValue_foldl]

/-- A decimal digit value is below ten. -/
theorem digitOfChar_ten_lt (c : Char) : (digitOfChar 10 c).getD 0 < 10 := by
  rw [digitOfChar_ten]
  split
  · rename_i h
    have := (isDigit_iff c).1 h
    simp only [Option.getD_some]
    omega
  · simp

/-- A run of `n` decimal digits denotes a number below `10 ^ n`. -/
theorem radixValue_ten_lt (cs : List Char) : radixValue 10 cs < 10 ^ cs.length := by
  induction cs with
  | nil => simp [radixValue]
  | cons c t ih =>
    rw [radixValue_cons, List.length_cons, pow_succ]
    have := digitOfChar_ten_lt c
    nlinarith

/-- On runs of digits of one length the order of code units is the order of the numbers. -/
theorem unitsLT_digits : ∀ (cs ds : List Char), (∀ c ∈ cs, c.isDigit = true) →
    (∀ c ∈ ds, c.isDigit = true) → cs.length = ds.length →
    (unitsLT (cs.map Char.toNat) (ds.map Char.toNat) = true
      ↔ radixValue 10 cs < radixValue 10 ds)
  | [], [], _, _, _ => by simp [unitsLT, radixValue]
  | [], _ :: _, _, _, hl => by simp at hl
  | _ :: _, [], _, _, hl => by simp at hl
  | c :: cs, d :: ds, hc, hd, hl => by
    have ih := unitsLT_digits cs ds (fun x hx => hc x (List.mem_cons_of_mem _ hx))
      (fun x hx => hd x (List.mem_cons_of_mem _ hx)) (by simpa using hl)
    have hlen : cs.length = ds.length := by simpa using hl
    have hcd := hc c (by simp)
    have hdd := hd d (by simp)
    have hcb := (isDigit_iff c).1 hcd
    have hdb := (isDigit_iff d).1 hdd
    rw [radixValue_cons, radixValue_cons, digitOfChar_ten, digitOfChar_ten, if_pos hcd,
      if_pos hdd, hlen]
    simp only [List.map_cons, unitsLT, Option.getD_some, Bool.or_eq_true, decide_eq_true_eq,
      Bool.and_eq_true, beq_iff_eq, ih]
    have hrc := radixValue_ten_lt cs
    have hrd := radixValue_ten_lt ds
    rw [hlen] at hrc
    generalize 10 ^ ds.length = P at hrc hrd
    generalize radixValue 10 cs = rc at hrc
    generalize radixValue 10 ds = rd at hrd
    rcases lt_trichotomy c.toNat d.toNat with hlt | heq | hgt
    · have h1 : (c.toNat - 48 + 1) * P ≤ (d.toNat - 48) * P :=
        Nat.mul_le_mul_right P (by omega)
      constructor
      · intro _
        nlinarith
      · intro _
        exact Or.inl hlt
    · rw [heq]
      constructor
      · rintro (h | h)
        · omega
        · omega
      · intro h
        exact Or.inr ⟨rfl, by omega⟩
    · have h1 : (d.toNat - 48 + 1) * P ≤ (c.toNat - 48) * P :=
        Nat.mul_le_mul_right P (by omega)
      constructor
      · rintro (h | h)
        · omega
        · omega
      · intro h
        exfalso
        nlinarith

/-- On decimal numerals of one length the string order is the order of the numbers. -/
theorem stringLT_decimalDigits (a b : Nat)
    (h : (decimalDigits a).length = (decimalDigits b).length) :
    stringLT (String.mk (decimalDigits a)) (String.mk (decimalDigits b)) = true ↔ a < b := by
  unfold stringLT
  rw [utf16Units_digits _ (decimalDigits_isDigit a), utf16Units_digits _ (decimalDigits_isDigit b),
    unitsLT_digits _ _ (decimalDigits_isDigit a) (decimalDigits_isDigit b) h,
    radixValue_decimalDigits, radixValue_decimalDigits]

/-! ### Model-year chart -/

/-- The keys of model years of `d ≤ 21` digits are their decimal numerals. -/
theorem fieldKeys_years (filtered : List Record) (d : Nat) (h : YearsOfWidth filtered d)
    (hd : d ≤ 21) :
    ∀ k ∈ fieldKeys filtered "Model Year",
      ∃ y : Nat, k = String.mk (decimalDigits y) ∧ (decimalDigits y).length = d := by
  intro k hk
  unfold fieldKeys at hk
  obtain ⟨r, hr, rfl⟩ := List.mem_map.1 hk
  obtain ⟨y, hy, hlen⟩ := h r hr
  refine ⟨y, ?_, hlen⟩
  rw [hy]
  exact numberToString_nat y (by omega)

/-- Claim C10, amended: for every record list in which every "Model Year" is a non-negative
integer with the same number `d` of decimal digits, and `d` is at most 21 (the years are
below `10 ^ 21`), the labels and the values of the model-year chart are aligned: the
value at each index is the count of the label at that index. -/
theorem modelYear_chart_aligned (filtered : List Record) (d : Nat)
    (h : YearsOfWidth filtered d) (hd : d ≤ 21) : ChartAligned filtered := by
  have hk := fieldKeys_years filtered d h hd
  have hkeys : ∀ k ∈ fieldKeys filtered "Model Year", k ∉ inheritedNames := by
    intro k hmem
    obtain ⟨y, rfl, _⟩ := hk k hmem
    exact decimalDigits_not_inherited y
  have hobj := getCounts_eq filtered "Model Year" hkeys
  have hentry : ∀ p ∈ (getCounts filtered "Model Year").entries,
      ∃ y : Nat, p.1 = String.mk (decimalDigits y) ∧ (decimalDigits y).length = d := by
    intro p hp
    have hp' := mem_entries.1 hp
    rw [hobj] at hp'
    obtain ⟨k, hkm, rfl⟩ := List.mem_map.1 hp'
    exact hk k (mem_firstSeen.1 hkm)
  have hsort := List.map_insertionSort
    (fun a b : String × JSVal =>
      ((stringToNumber a.1).sub (stringToNumber b.1)).sortSign ≤ 0)
    (fun a b : String => stringLT b a = false) Prod.fst
    (getCounts filtered "Model Year").entries
    (by
      intro a ha b hb
      obtain ⟨ya, hya, hla⟩ := hentry a ha
      obtain ⟨yb, hyb, hlb⟩ := hentry b hb
      show ((stringToNumber a.1).sub (stringToNumber b.1)).sortSign ≤ 0
        ↔ stringLT b.1 a.1 = false
      rw [hya, hyb, stringToNumber_decimalDigits, stringToNumber_decimalDigits]
      have h1 := sortSign_sub_counts yb ya
      simp only [toNumber] at h1
      rw [h1]
      have h2 := stringLT_decimalDigits yb ya (by rw [hla, hlb])
      rw [Bool.eq_false_iff, ne_eq, h2]
      omega)
  have hlabels : modelYearLabels filtered
      = (arraySort (fun a b => (stringToNumber a.1).sub (stringToNumber b.1))
          (getCounts filtered "Model Year").entries).map Prod.fst := by
    unfold modelYearLabels defaultSort JSObject.keys arraySort
    exact hsort.symm
  have hdata : modelYearData filtered
      = (arraySort (fun a b => (stringToNumber a.1).sub (stringToNumber b.1))
          (getCounts filtered "Model Year").entries).map Prod.snd := rfl
  constructor
  · rw [hlabels, hdata, List.length_map, List.length_map]
  · intro i label value hl hv
    rw [hlabels, List.getElem?_map] at hl
    rw [hdata, List.getElem?_map] at hv
    cases hp : (arraySort (fun a b : String × JSVal =>
        (stringToNumber a.1).sub (stringToNumber b.1))
        (getCounts filtered "Model Year").entries)[i]? with
    | none =>
      rw [hp] at hl
      simp at hl
    | some p =>
      rw [hp] at hl hv
      simp only [Option.map_some', Option.some.injEq] at hl hv
      have hmem : p ∈ getCounts filtered "Model Year" := by
        have := List.getElem?_mem hp
        exact mem_entries.1 ((List.mem_insertionSort _).1 this)
      rw [hobj] at hmem ⊢
      obtain ⟨k, hkm, rfl⟩ := List.mem_map.1 hmem
      simp only at hl hv
      rw [← hl, ← hv, lookup_map_key, if_pos hkm]

/-- Claim C10, amended, at the years 2020, 2019, 2020. -/
theorem modelYear_chart_aligned_example :
    YearsOfWidth [[("Model Year", .num (.dec 2020 0))], [("Model Year", .num (.dec 2019 0))],
        [("Model Year", .num (.dec 2020 0))]] 4 ∧
      ChartAligned [[("Model Year", .num (.dec 2020 0))], [("Model Year", .num (.dec 2019 0))],
        [("Model Year", .num (.dec 2020 0))]] :=
  have h : YearsOfWidth [[("Model Year", .num (.dec 2020 0))],
      [("Model Year", .num (.dec 2019 0))], [("Model Year", .num (.dec 2020 0))]] 4 := by
    intro r hr
    simp only [List.mem_cons, List.mem_singleton, List.not_mem_nil, or_false] at hr
    rcases hr with rfl | rfl | rfl
    · exact ⟨2020, by decide, by decide⟩
    · exact ⟨2019, by decide, by decide⟩
    · exact ⟨2020, by decide, by decide⟩
  ⟨h, modelYear_chart_aligned _ 4 h (by decide)⟩

/-- Claim C10 as stated fails: the years `10 ^ 21` (twice) and `1.5 * 10 ^ 21` (once) are
non-negative integers of 22 digits each, their keys are "1e+21" and "1.5e+21", the
labels come out as "1.5e+21", "1e+21" and the values as 2, 1. -/
theorem modelYear_chart_misaligned :
    YearsOfWidth [[("Model Year", .num (.dec 1000000000000000000000 0))],
        [("Model Year", .num (.dec 1000000000000000000000 0))],
        [("Model Year", .num (.dec 1500000000000000000000 0))]] 22 ∧
      ¬ ChartAligned [[("Model Year", .num (.dec 1000000000000000000000 0))],
        [("Model Year", .num (.dec 1000000000000000000000 0))],
        [("Model Year", .num (.dec 1500000000000000000000 0))]] := by
  constructor
  · intro r hr
    simp only [List.mem_cons, List.mem_singleton, List.not_mem_nil, or_false] at hr
    rcases hr with rfl | rfl | rfl
    · exact ⟨1000000000000000000000, by decide, by decide⟩
    · exact ⟨1000000000000000000000, by decide, by decide⟩
    · exact ⟨1500000000000000000000, by decide, by decide⟩
  · intro h
    have h0 := h.2 0 "1.5e+21" (.num (.dec 2 0)) (by decide) (by decide)
    revert h0
    decide

/-! ### Sum of the counts -/

/-- Adding counts with `+` adds them as numbers. -/
theorem foldl_jsPlus_counts (cs : List Nat) (a : Nat) :
    (cs.map fun c : Nat => JSVal.num (.dec (c : Int) 0)).foldl jsPlus (.num (.dec (a : Int) 0))
      = .num (.dec ((a + cs.sum : Nat) : Int) 0) := by
  induction cs generalizing a with
  | nil => simp
  | cons c t ih =>
    have hstep : jsPlus (.num (.dec (a : Int) 0)) (.num (.dec (c : Int) 0))
        = .num (.dec ((a + c : Nat) : Int) 0) := by
      simp [jsPlus, JSNum.add]
    simp only [List.map_cons, List.foldl_cons, hstep, ih, List.sum_cons, Nat.add_assoc]

/-- Outside the defect of claim C2 the counts do add up: when no key is a name inherited from
`Object.prototype`, the values of the count map sum to the number of records. -/
theorem valuesSum_getCounts (filtered : List Record) (field : String)
    (hkeys : ∀ k ∈ fieldKeys filtered field, k ∉ inheritedNames) :
    valuesSum (getCounts filtered field) = .num (.dec filtered.length 0) := by
  have hcm := isCountMap_getCounts filtered field hkeys
  have hobj := getCounts_eq filtered field hkeys
  unfold valuesSum JSObject.values
  have hvals : (getCounts filtered field).entries.map Prod.snd
      = ((getCounts filtered field).entries.map fun p => countOf p.2).map
          fun c : Nat => JSVal.num (.dec (c : Int) 0) := by
    rw [List.map_map]
    apply List.map_congr_left
    intro p hp
    obtain ⟨c, hc⟩ := hcm p (mem_entries.1 hp)
    simp [hc, countOf_count]
  have h0 := foldl_jsPlus_counts ((getCounts filtered field).entries.map fun p => countOf p.2) 0
  rw [hvals]
  simp only [Nat.cast_zero] at h0
  rw [h0, Nat.zero_add]
  have hperm : ((getCounts filtered field).entries.map fun p => countOf p.2).Perm
      ((fieldKeys filtered field).dedup.map fun k => (fieldKeys filtered field).count k) := by
    refine ((entries_perm _).map _).trans ?_
    rw [hobj, List.map_map]
    have hfs : (firstSeen (fieldKeys filtered field)).Perm (fieldKeys filtered field).dedup := by
      rw [List.perm_ext_iff_of_nodup (nodup_firstSeen _) (List.nodup_dedup _)]
      intro k
      rw [mem_firstSeen, List.mem_dedup]
    refine (hfs.map _).trans ?_
    apply List.Perm.of_eq
    apply List.map_congr_left
    intro k _
    simp [countOf_count]
  rw [hperm.sum_eq, List.sum_map_count_dedup_eq_length]
  simp [fieldKeys]

/-! ### Integer fields of the normalizer -/

/-- A number is below two to the number of its binary digits. -/
theorem lt_two_pow_bitLength : ∀ (fuel n : Nat), n ≤ fuel → n < 2 ^ bitLength fuel n
  | 0, n, h => by
    have : n = 0 := by omega
    subst this
    simp [bitLength]
  | fuel + 1, n, h => by
    unfold bitLength
    split
    · rename_i h0
      rw [h0]
      simp
    · rename_i h0
      have ih := lt_two_pow_bitLength fuel (n / 2) (by omega)
      rw [pow_succ]
      omega

/-- A positive number reaches two to the number of its binary digits less one. -/
theorem two_pow_bitLength_le : ∀ (fuel n : Nat), n ≤ fuel → n ≠ 0 →
    2 ^ (bitLength fuel n - 1) ≤ n
  | 0, n, h, h0 => by omega
  | fuel + 1, n, h, h0 => by
    unfold bitLength
    rw [if_neg h0, Nat.add_sub_cancel]
    by_cases h1 : n / 2 = 0
    · rw [h1]
      have : bitLength fuel 0 = 0 := by
        cases fuel <;> simp [bitLength]
      rw [this]
      simp
      omega
    · have ih := two_pow_bitLength_le fuel (n / 2) (by omega) h1
      have hb : 1 ≤ bitLength fuel (n / 2) := by
        cases fuel with
        | zero => omega
        | succ f =>
          unfold bitLength
          rw [if_neg h1]
          omega
      have e : bitLength fuel (n / 2) = (bitLength fuel (n / 2) - 1) + 1 := by omega
      rw [e, pow_succ]
      omega

/-- A number below `2 ^ k` has at most `k` binary digits. -/
theorem bitLength_le_of_lt : ∀ (fuel n k : Nat), n < 2 ^ k → bitLength fuel n ≤ k
  | 0, _, _, _ => by simp [bitLength]
  | fuel + 1, n, k, h => by
    unfold bitLength
    split
    · omega
    · rename_i h0
      cases k with
      | zero =>
        simp at h
        exact absurd h h0
      | succ k =>
        have ih := bitLength_le_of_lt fuel (n / 2) k (by rw [pow_succ] at h; omega)
        omega

/-- The rounding to binary64 of an integer below `2 ^ 200` is finite, has a significand of at
most 53 binary digits, lies within half a unit in the last place of the integer, and has
an even significand on a tie. -/
theorem roundBinary64_spec (n : Nat) (hn : n < 2 ^ 200) :
    ∃ m e : Nat, roundBinary64 n = some (m * 2 ^ e) ∧ m ≤ 2 ^ 53 ∧ (e = 0 ∨ 2 ^ 52 ≤ m) ∧
      2 * (m * 2 ^ e) ≤ 2 * n + 2 ^ e ∧ 2 * n ≤ 2 * (m * 2 ^ e) + 2 ^ e ∧
      ((2 * (m * 2 ^ e) = 2 * n + 2 ^ e ∨ 2 * n = 2 * (m * 2 ^ e) + 2 ^ e) → m % 2 = 0) := by
  have hlt := lt_two_pow_bitLength n n le_rfl
  have hb : bitLength n n ≤ 53 + (bitLength n n - 53) := by omega
  have hq : n / 2 ^ (bitLength n n - 53) < 2 ^ 53 := by
    rw [Nat.div_lt_iff_lt_mul (by positivity)]
    calc n < 2 ^ bitLength n n := hlt
      _ ≤ 2 ^ (53 + (bitLength n n - 53)) := Nat.pow_le_pow_right (by norm_num) hb
      _ = 2 ^ 53 * 2 ^ (bitLength n n - 53) := by rw [pow_add]
  have hq52 : bitLength n n - 53 ≠ 0 → 2 ^ 52 ≤ n / 2 ^ (bitLength n n - 53) := by
    intro he
    have h0 : n ≠ 0 := by
      intro h0
      rw [h0] at he
      simp [bitLength] at he
    have hle := two_pow_bitLength_le n n le_rfl h0
    rw [Nat.le_div_iff_mul_le (by positivity)]
    calc 2 ^ 52 * 2 ^ (bitLength n n - 53) = 2 ^ (52 + (bitLength n n - 53)) := by
          rw [pow_add]
      _ = 2 ^ (bitLength n n - 1) := by
          congr 1
          omega
      _ ≤ n := hle
  have hPn : n ≠ 0 → 2 ^ (bitLength n n - 53) ≤ n := by
    intro h0
    have hle := two_pow_bitLength_le n n le_rfl h0
    exact le_trans (Nat.pow_le_pow_right (by norm_num) (by omega)) hle
  have hdm := Nat.div_add_mod n (2 ^ (bitLength n n - 53))
  have hr := Nat.mod_lt n (show 0 < 2 ^ (bitLength n n - 53) by positivity)
  have hfinite : ∀ x : Nat, x ≤ 2 * n → bitLength x x ≤ 1024 := by
    intro x hx
    have h201 : x < 2 ^ 201 := by
      rw [pow_succ]
      omega
    exact le_trans (bitLength_le_of_lt x x 201 h201) (by norm_num)
  unfold roundBinary64
  simp only
  generalize hP : 2 ^ (bitLength n n - 53) = P at *
  generalize hQ : n / P = q at *
  generalize hR : n % P = r at *
  have hmul : P * q = q * P := Nat.mul_comm _ _
  have hsucc : (q + 1) * P = q * P + P := Nat.succ_mul _ _
  by_cases hup : P < 2 * r ∨ (2 * r = P ∧ q % 2 = 1)
  · rw [if_pos hup]
    have hn0 : n ≠ 0 := by
      rintro rfl
      simp at hR
      omega
    have hPle := hPn hn0
    rw [if_pos (hfinite _ (by rw [hsucc]; omega))]
    refine ⟨q + 1, bitLength n n - 53, by rw [hP], by omega, ?_, ?_, ?_, ?_⟩
    · by_cases he : bitLength n n - 53 = 0
      · exact Or.inl he
      · exact Or.inr (by have := hq52 he; omega)
    · rw [hP, hsucc]
      omega
    · rw [hP, hsucc]
      omega
    · rw [hP, hsucc]
      omega
  · rw [if_neg hup]
    rw [if_pos (hfinite _ (by omega))]
    refine ⟨q, bitLength n n - 53, by rw [hP], by omega, ?_, ?_, ?_, ?_⟩
    · by_cases he : bitLength n n - 53 = 0
      · exact Or.inl he
      · exact Or.inr (hq52 he)
    · rw [hP]
      omega
    · rw [hP]
      omega
    · rw [hP]
      omega

/-- An integer of at most `2 ^ 53` is its own number value. -/
theorem roundBinary64_exact (n : Nat) (hn : n ≤ 2 ^ 53) : roundBinary64 n = some n := by
  rcases Nat.lt_or_ge n (2 ^ 53) with hlt | hge
  · have hb : bitLength n n ≤ 53 := bitLength_le_of_lt n n 53 hlt
    have he : bitLength n n - 53 = 0 := by omega
    unfold roundBinary64
    simp only [he, pow_zero, Nat.div_one, Nat.mod_one, Nat.mul_one]
    have h1 : ¬ (1 < 2 * 0 ∨ (2 * 0 = 1 ∧ n % 2 = 1)) := by omega
    rw [if_neg h1, if_pos (by omega)]
  · have : n = 2 ^ 53 := by omega
    subst this
    decide

/-- The characters that the model skips are the white space of the language. -/
theorem isStrWhiteSpace_iff (c : Char) : isStrWhiteSpace c = true ↔ IsWhiteSpaceChar c := by
  unfold isStrWhiteSpace IsWhiteSpaceChar
  generalize c.toNat = x
  simp only [List.contains_eq_any_beq, List.any_cons, List.any_nil, Bool.or_false,
    Bool.or_eq_true, beq_iff_eq]
  omega

/-- Dropping a leading run stops at the first character outside it. -/
theorem dropWhile_append_of_head {p : Char → Bool} (ws rest : List Char)
    (hws : ∀ c ∈ ws, p c = true) (hrest : ∀ c ∈ rest.head?, p c = false) :
    (ws ++ rest).dropWhile p = rest := by
  induction ws with
  | nil =>
    cases rest with
    | nil => rfl
    | cons c t =>
      simp only [List.nil_append]
      rw [List.dropWhile_cons_of_neg]
      simp [hrest c (by simp)]
  | cons c t ih =>
    rw [List.cons_append, List.dropWhile_cons_of_pos (hws c (by simp))]
    exact ih (fun x hx => hws x (List.mem_cons_of_mem _ hx))

/-- Taking a leading run stops at the first character outside it. -/
theorem takeWhile_append_of_head {p : Char → Bool} (run rest : List Char)
    (hrun : ∀ c ∈ run, p c = true) (hrest : ∀ c ∈ rest.head?, p c = false) :
    (run ++ rest).takeWhile p = run := by
  induction run with
  | nil =>
    cases rest with
    | nil => rfl
    | cons c t =>
      simp only [List.nil_append]
      rw [List.takeWhile_cons_of_neg]
      simp [hrest c (by simp)]
  | cons c t ih =>
    rw [List.cons_append, List.takeWhile_cons_of_pos (hrun c (by simp))]
    rw [ih (fun x hx => hrun x (List.mem_cons_of_mem _ hx))]

/-- A text that opens with neither sign has no sign. -/
theorem takeSign_cons_of_ne (c : Char) (t : List Char) (h₁ : c ≠ '-') (h₂ : c ≠ '+') :
    takeSign (c :: t) = (false, c :: t) := by
  unfold takeSign
  split
  · rename_i heq
    simp only [List.cons.injEq] at heq
    exact absurd heq.1 h₁
  · rename_i heq
    simp only [List.cons.injEq] at heq
    exact absurd heq.1 h₂
  · rfl

/-- The value read from a run of decimal digits is its place value. -/
theorem radixValue_eq_digitRunValue (digits : List Char) (h : ∀ c ∈ digits, c.isDigit = true) :
    radixValue 10 digits = digitRunValue digits := by
  unfold digitRunValue
  induction digits using List.reverseRecOn with
  | nil => rfl
  | append_singleton l c ih =>
    rw [radixValue_append_singleton, ih (fun x hx => h x (List.mem_append_left _ hx)),
      List.map_append, List.map_singleton, List.reverse_append, List.reverse_singleton,
      List.singleton_append, Nat.ofDigits_cons, digitOfChar_ten, if_pos (h c (by simp))]
    simp only [Option.getD_some, Nat.cast_id]
    omega

/-- A text made of a longest run of decimal digits and a rest has no hexadecimal prefix,
unless the run is "0" and the rest opens with `x` or `X`. -/
theorem stripHexPrefix_digits (digits rest : List Char)
    (hdigits : ∀ c ∈ digits, c.isDigit = true) (hrest : ∀ c ∈ rest.head?, c.isDigit = false)
    (hhex : ¬ (digits = [ '0'] ∧ (rest.head? = some 'x' ∨ rest.head? = some 'X'))) :
    stripHexPrefix (digits ++ rest) = (10, digits ++ rest) := by
  have key : ∀ (x : Char) (t : List Char), x.isDigit = false → digits ++ rest = '0' :: x :: t →
      digits = [ '0'] ∧ rest.head? = some x := by
    intro x t hx heq
    cases digits with
    | nil =>
      simp only [List.nil_append] at heq
      have := hrest '0' (by rw [heq]; simp)
      exact absurd this (by decide)
    | cons d ds =>
      cases ds with
      | nil =>
        simp only [List.cons_append, List.nil_append, List.cons.injEq] at heq
        rw [heq.1, heq.2]
        simp
      | cons d' ds' =>
        simp only [List.cons_append, List.cons.injEq] at heq
        have := hdigits d' (by simp)
        rw [heq.2.1, hx] at this
        exact absurd this (by simp)
  unfold stripHexPrefix
  split
  · rename_i t heq
    exact absurd ⟨(key 'x' t (by decide) heq).1, Or.inl (key 'x' t (by decide) heq).2⟩ hhex
  · rename_i t heq
    exact absurd ⟨(key 'X' t (by decide) heq).1, Or.inr (key 'X' t (by decide) heq).2⟩ hhex
  · rfl

/-- White space, then an optional sign, then digits and a rest: skipping the white space and
taking the sign leaves the digits and the rest. -/
theorem takeSign_dropWhile_decomposed (ws sign digits rest : List Char)
    (hws : ∀ c ∈ ws, IsWhiteSpaceChar c)
    (hsign : sign = [] ∨ sign = [ '+'] ∨ sign = [ '-'])
    (hdigits : ∀ c ∈ digits, c.isDigit = true)
    (hstart : sign = [] → digits = [] →
      ∀ c ∈ rest.head?, ¬ IsWhiteSpaceChar c ∧ c ≠ '+' ∧ c ≠ '-') :
    takeSign ((ws ++ sign ++ digits ++ rest).dropWhile isStrWhiteSpace)
      = (decide (sign = [ '-']), digits ++ rest) := by
  have hws' : ∀ c ∈ ws, isStrWhiteSpace c = true := fun c hc =>
    (isStrWhiteSpace_iff c).2 (hws c hc)
  have hnot : ∀ c : Char, ¬ IsWhiteSpaceChar c → isStrWhiteSpace c = false := by
    intro c hc
    rw [Bool.eq_false_iff, ne_eq, isStrWhiteSpace_iff]
    exact hc
  rw [List.append_assoc, List.append_assoc]
  rcases hsign with rfl | rfl | rfl
  · simp only [List.nil_append]
    cases digits with
    | nil =>
      simp only [List.nil_append]
      have hs := hstart rfl rfl
      rw [dropWhile_append_of_head ws rest hws' (fun c hc => hnot c (hs c hc).1)]
      cases rest with
      | nil => rfl
      | cons c t =>
        have hc := hs c (by simp)
        rw [takeSign_cons_of_ne c t hc.2.2 hc.2.1]
        rfl
    | cons d ds =>
      have hd := hdigits d (by simp)
      rw [dropWhile_append_of_head ws _ hws' (by
        intro c hc
        simp only [List.cons_append, List.head?_cons, Option.mem_def, Option.some.injEq] at hc
        rw [← hc]
        exact not_whiteSpace_of_isDigit d hd)]
      rw [List.cons_append, takeSign_cons_of_ne d _
        (fun e => by rw [e] at hd; exact absurd hd (by decide))
        (fun e => by rw [e] at hd; exact absurd hd (by decide))]
      rfl
  · rw [dropWhile_append_of_head ws _ hws' (by
      intro c hc
      simp only [List.cons_append, List.head?_cons, Option.mem_def, Option.some.injEq] at hc
      rw [← hc]
      decide)]
    rfl
  · rw [dropWhile_append_of_head ws _ hws' (by
      intro c hc
      simp only [List.cons_append, List.head?_cons, Option.mem_def, Option.some.injEq] at hc
      rw [← hc]
      decide)]
    rfl

/-- The call `parseInt` on a text that is white space, an optional sign, a longest run of
decimal digits and a rest, and has no hexadecimal prefix. -/
theorem parseInt_decomposed (v : JSVal) (ws sign digits rest : List Char)
    (htext : (toJSString v).data = ws ++ sign ++ digits ++ rest)
    (hws : ∀ c ∈ ws, IsWhiteSpaceChar c)
    (hsign : sign = [] ∨ sign = [ '+'] ∨ sign = [ '-'])
    (hdigits : ∀ c ∈ digits, c.isDigit = true)
    (hrest : ∀ c ∈ rest.head?, c.isDigit = false)
    (hstart : sign = [] → digits = [] →
      ∀ c ∈ rest.head?, ¬ IsWhiteSpaceChar c ∧ c ≠ '+' ∧ c ≠ '-')
    (hhex : ¬ (digits = [ '0'] ∧ (rest.head? = some 'x' ∨ rest.head? = some 'X'))) :
    parseInt v =
      if digits = [] then .nan
      else
        match roundBinary64 (digitRunValue digits) with
        | some x => .dec (signed (decide (sign = [ '-'])) x) 0
        | none => .inf (decide (sign = [ '-'])) := by
  have hfun : isRadixDigit 10 = Char.isDigit := funext isRadixDigit_ten
  unfold parseInt
  simp only [htext, takeSign_dropWhile_decomposed ws sign digits rest hws hsign hdigits hstart,
    stripHexPrefix_digits digits rest hdigits hrest hhex, hfun,
    takeWhile_append_of_head digits rest hdigits hrest,
    radixValue_eq_digitRunValue digits hdigits]

/-- Claim C9, amended: for every row that the normalizer turns into a record and each of the
fields "Model Year", "Electric Range" and "Base MSRP", let the text of the field be
leading white space, one optional sign, the longest run of decimal digits that follows,
and a rest, the run not being "0" followed by `x` or `X`. The normalized value is
not-a-number exactly when the run is empty; it is the signed integer that the run denotes
when that integer is at most `2 ^ 53`; and for a run of at most 20 digits it is that
integer rounded to binary64: a significand of at most 53 binary digits times a power of
two, within half a unit in the last place, with an even significand on a tie. -/
theorem cleanItem_integer_field (item : RawRecord) (r : Record) (field : String)
    (ws sign digits rest : List Char)
    (hfield : field = "Model Year" ∨ field = "Electric Range" ∨ field = "Base MSRP")
    (hok : cleanItem item = .ok r)
    (htext : (toJSString ((rawObject item).get field)).data = ws ++ sign ++ digits ++ rest)
    (hws : ∀ c ∈ ws, IsWhiteSpaceChar c)
    (hsign : sign = [] ∨ sign = [ '+'] ∨ sign = [ '-'])
    (hdigits : ∀ c ∈ digits, c.isDigit = true)
    (hrest : ∀ c ∈ rest.head?, c.isDigit = false)
    (hstart : sign = [] → digits = [] →
      ∀ c ∈ rest.head?, ¬ IsWhiteSpaceChar c ∧ c ≠ '+' ∧ c ≠ '-')
    (hhex : ¬ (digits = [ '0'] ∧ (rest.head? = some 'x' ∨ rest.head? = some 'X'))) :
    (r.get field = .num .nan ↔ digits = []) ∧
      (digits ≠ [] → digitRunValue digits ≤ 2 ^ 53 →
        r.get field = .num (.dec
          (if sign = [ '-'] then -(digitRunValue digits : Int) else digitRunValue digits) 0)) ∧
      (digits ≠ [] → digits.length ≤ 20 → ∃ m e : Nat,
        r.get field = .num (.dec
          (if sign = [ '-'] then -((m * 2 ^ e : Nat) : Int) else ((m * 2 ^ e : Nat) : Int)) 0) ∧
        m ≤ 2 ^ 53 ∧ (e = 0 ∨ 2 ^ 52 ≤ m) ∧
        2 * (m * 2 ^ e) ≤ 2 * digitRunValue digits + 2 ^ e ∧
        2 * digitRunValue digits ≤ 2 * (m * 2 ^ e) + 2 ^ e ∧
        ((2 * (m * 2 ^ e) = 2 * digitRunValue digits + 2 ^ e ∨
            2 * digitRunValue digits = 2 * (m * 2 ^ e) + 2 ^ e) → m % 2 = 0)) := by
  obtain ⟨lat, lon, hr⟩ := cleanItem_ok item r hok
  have hget : r.get field = .num (parseInt ((rawObject item).get field)) := by
    rw [hr]
    rcases hfield with rfl | rfl | rfl
    · rw [get_define_ne _ _ _ _ (by decide), get_define_ne _ _ _ _ (by decide),
        get_define_ne _ _ _ _ (by decide), get_define_ne _ _ _ _ (by decide), get_define_same]
    · rw [get_define_ne _ _ _ _ (by decide), get_define_ne _ _ _ _ (by decide),
        get_define_ne _ _ _ _ (by decide), get_define_same]
    · rw [get_define_ne _ _ _ _ (by decide), get_define_ne _ _ _ _ (by decide),
        get_define_same]
  have hparse := parseInt_decomposed _ ws sign digits rest htext hws hsign hdigits hrest
    hstart hhex
  rw [hget, hparse]
  have hsigned : ∀ x : Nat, signed (decide (sign = [ '-'])) x
      = if sign = [ '-'] then -(x : Int) else (x : Int) := by
    intro x
    unfold signed
    by_cases hs : sign = [ '-'] <;> simp [hs]
  refine ⟨?_, ?_, ?_⟩
  · constructor
    · intro h
      by_contra hne
      rw [if_neg hne] at h
      cases hround : roundBinary64 (digitRunValue digits) <;> rw [hround] at h <;> simp at h
    · intro h
      rw [if_pos h]
  · intro hne hle
    rw [if_neg hne, roundBinary64_exact _ hle]
    simp only [hsigned]
  · intro hne hlen
    have hbound : digitRunValue digits < 2 ^ 200 := by
      rw [← radixValue_eq_digitRunValue digits hdigits]
      calc radixValue 10 digits < 10 ^ digits.length := radixValue_ten_lt digits
        _ ≤ 10 ^ 20 := Nat.pow_le_pow_right (by norm_num) hlen
        _ < 2 ^ 200 := by norm_num
    obtain ⟨m, e, hround, h1, h2, h3, h4, h5⟩ := roundBinary64_spec _ hbound
    refine ⟨m, e, ?_, h1, h2, h3, h4, h5⟩
    rw [if_neg hne, hround]
    simp only [hsigned]

/-- Claim C9, amended, at a row whose model year is "  -42px": two spaces, a minus sign, the
run "42" and the rest "px" give -42. -/
theorem cleanItem_integer_field_example :
    cleanItem [("Model Year", "  -42px"), ("Vehicle Location", "POINT (1 2)")]
        = .ok [("Model Year", .num (.dec (-42) 0)), ("Vehicle Location", .str "POINT (1 2)"),
          ("Electric Range", .num .nan), ("Base MSRP", .num .nan),
          ("Latitude", .num (.dec 1 0)), ("Longitude", .num (.dec 2 0))] ∧
      "  -42px".data = [ ' ', ' '] ++ [ '-'] ++ [ '4', '2'] ++ [ 'p', 'x'] ∧
      digitRunValue [ '4', '2'] = 42 ∧
      JSObject.get [("Model Year", .num (.dec (-42) 0)),
          ("Vehicle Location", .str "POINT (1 2)"), ("Electric Range", .num .nan),
          ("Base MSRP", .num .nan), ("Latitude", .num (.dec 1 0)),
          ("Longitude", .num (.dec 2 0))] "Model Year" = .num (.dec (-42) 0) :=
  ⟨rfl, rfl, by decide,
    ((cleanItem_integer_field
      [("Model Year", "  -42px"), ("Vehicle Location", "POINT (1 2)")] _ "Model Year"
      [ ' ', ' '] [ '-'] [ '4', '2'] [ 'p', 'x'] (Or.inl rfl) rfl rfl (by decide)
      (Or.inr (Or.inr rfl)) (by decide)
      (by intro c hc; cases hc; decide)
      (by intro h; exact absurd h (by decide))
      (by decide)).2.1 (by decide) (by decide)).trans (by decide)⟩

/-- Claim C9 as stated fails twice: "12abc" is not a base-10 integer numeral, yet the
normalized model year is 12 and not not-a-number; and the numeral "9007199254740993" is
normalized to 9007199254740992, which is not the integer it denotes. -/
theorem parseInt_not_numeral_counterexample :
    isBase10Numeral "12abc" = false ∧
      (cleanItem [("Model Year", "12abc"), ("Vehicle Location", "POINT (1 2)")]).map
        (fun r => r.get "Model Year") = .ok (.num (.dec 12 0)) ∧
      isBase10Numeral "9007199254740993" = true ∧
      (cleanItem [("Model Year", "9007199254740993"),
          ("Vehicle Location", "POINT (1 2)")]).map
        (fun r => r.get "Model Year") = .ok (.num (.dec 9007199254740992 0)) := by
  refine ⟨by decide, rfl, by decide, ?_⟩
  have h : parseInt (.str "9007199254740993") = .dec 9007199254740992 0 := by decide
  simp only [cleanItem, rawObject, locationToken]
  rfl

end EvDashboard
